import Mathlib

/-!
Verification of the Giles production-system compiler front end.

This file gives a shallow embedding, in Lean 4, of the parts of the Giles
compiler (KoreLogicSecurity/giles) that the specification's claims are
about:

* the expression layer of `giles/expression.py` (AST nodes, the
  `type_check` decorator, and the operator / built-in function methods of
  the `Parser` class, including their constant folding),
* the joinable-predicate checks of `giles/giles.py`,
* the parameter-evaluation loop of `giles/giles.py`,
* the `find_cycle` routine of `giles/giles.py`,
* the `List` validator of `giles/validate.py`,
* `find_locals`, `add_index`, `generate_join`, the index prefix tree and
  its depth-first emission, and the synthetic-assignment pass of
  `giles/sqlite_backend.py`.

Python's in-place mutation is modelled by explicit state passing, Python
exceptions by `Except`, Python `float` by `ℚ`, Python's arbitrary
precision `int` by `Int`, and Python dictionaries by insertion-ordered
association lists.  Case-insensitive `CaselessString` keys are modelled
as already case-folded `String`s (case-insensitivity is orthogonal to
every claim below).  The regular-expression operators `~` and `!~`
delegate to Python's `re` engine and are not embedded; no claim concerns
them.
-/

namespace Giles

/-- The four Giles type tags (Python `bool`, `int`, `float`, `str`). -/
inductive Ty : Type where
  | bool : Ty
  | int : Ty
  | real : Ty
  | str : Ty
deriving DecidableEq, Repr

/-- A literal value, as the Python values the parser folds constants to. -/
inductive Value : Type where
  | vBool : Bool → Value
  | vInt : Int → Value
  | vReal : ℚ → Value
  | vStr : String → Value
deriving DecidableEq, Repr

/-- Python `type(v)` of a literal, as a type tag. -/
def Value.ty : Value → Ty
  | .vBool _ => .bool
  | .vInt _ => .int
  | .vReal _ => .real
  | .vStr _ => .str

/--
The expression AST of `giles/expression.py`.  In the Python source an
operand is either a plain Python constant or a `Node` subclass; here the
`lit` constructor plays the role of a plain constant and the remaining
constructors mirror `LocalReferenceNode`, `ThisReferenceNode`,
`BinaryOpNode` (with its `operation`, readable `name` and `type`
members), `UnaryOpNode`, `IfNode`, `CastNode`, `FunctionNode` and
`JoinNode`.
-/
inductive Expr : Type where
  | lit : Value → Expr
  | localRef : String → Ty → Expr
  | thisRef : String → Ty → Expr
  | binOp : String → String → Expr → Expr → Ty → Expr
  | unOp : String → String → Expr → Ty → Expr
  | ifNode : Expr → Expr → Expr → Ty → Expr
  | castNode : Expr → Ty → Expr
  | funcNode : String → String → List Expr → Ty → Expr
  | joinNode : Expr → Expr → Expr

/-- The `type` member of a node, or `type(v)` of a plain constant.  A
`JoinNode` sets `self.type = bool` in its initializer. -/
def Expr.type : Expr → Ty
  | .lit v => v.ty
  | .localRef _ t => t
  | .thisRef _ t => t
  | .binOp _ _ _ _ t => t
  | .unOp _ _ _ t => t
  | .ifNode _ _ _ t => t
  | .castNode _ t => t
  | .funcNode _ _ _ t => t
  | .joinNode _ _ => .bool

/-- Whether the operand is a plain Python constant, i.e. the test
`type(arg) in (bool, float, int, str)` from the source. -/
def Expr.isLit : Expr → Bool
  | .lit _ => true
  | _ => false

/-- The test `isinstance(arg, LocalReferenceNode)` from the source. -/
def Expr.isLocalRef : Expr → Bool
  | .localRef _ _ => true
  | _ => false

/-- The test `isinstance(arg, ThisReferenceNode)` from the source. -/
def Expr.isThisRef : Expr → Bool
  | .thisRef _ _ => true
  | _ => false

/--
`BinaryOpNode(operation, arg1, arg2, kind, readable_name)`: its `name`
defaults to the operation and its `type` to the type of `arg1` (the
source reads `type(arg1) if type(arg1) in (bool, float, int, str) else
arg1.type`, which is `Expr.type` here), unless an explicit `kind` is
passed.
-/
def mkBinOp (operation : String) (rname : Option String) (a b : Expr) (kind : Option Ty) : Expr :=
  .binOp operation (rname.getD operation) a b (kind.getD a.type)

/-- `UnaryOpNode(operation, arg1)`: `type` is the type of the operand. -/
def mkUnOp (operation : String) (a : Expr) : Expr :=
  .unOp operation operation a a.type

/-- Python exceptions raised while evaluating an expression. -/
inductive PErr : Type where
  | invalidTypes : String → List Ty → PErr
  | unknownOperator : String → PErr
  | unknownFunction : String → PErr
  | joinOutsideMatch : PErr
  | zeroDivision : PErr
  | valueError : String → PErr
  | pyTypeError : PErr
  | nonConstant : PErr
deriving DecidableEq, Repr

/--
The `Parser` object of `giles/expression.py`, restricted to the two
attributes its operator methods consult: `self.this` and
`self.allow_regexp`.  The attribute can in principle hold Python `None`,
hence the `Option`.
-/
structure Parser : Type where
  thisAttr : Option (List (String × Ty))
  allowRegexp : Bool

/--
`Parser.__init__(constants, variables, this, allow_regexp)`: the source
assigns `self.this = this if this is not None else {}` — so the stored
attribute is *never* `None`, even when the caller passes `None` (as
`giles.py` does for every expression outside a match context).
-/
def mkParser (thisArg : Option (List (String × Ty))) (allowRegexp : Bool) : Parser :=
  ⟨some (thisArg.getD []), allowRegexp⟩

/-- Python `str(True)` / `str(False)`. -/
def pyStrOfBool (b : Bool) : String :=
  if b then "True" else "False"

/-- Models Python `str()` applied to a float.  The exact decimal
rendering of Python floats is not needed by any claim; both the parser
fold and the mathematical evaluator share this function. -/
def pyStrOfReal (q : ℚ) : String :=
  if q.den = 1 then toString q.num ++ ".0" else toString q

/-- Python `int()` applied to a float: truncation toward zero. -/
def pyTrunc (q : ℚ) : Int :=
  if 0 ≤ q then ⌊q⌋ else ⌈q⌉

/-- Python `str.strip()` (also modelling `str.trim`-style whitespace
removal): drop whitespace from both ends. -/
def pyStrip (s : String) : String :=
  ⟨((s.data.dropWhile Char.isWhitespace).reverse.dropWhile Char.isWhitespace).reverse⟩

/-- Python `str.lower()`. -/
def pyLower (s : String) : String :=
  ⟨s.data.map Char.toLower⟩

/-- Python `int()` applied to a string: optional surrounding whitespace,
an optional sign, then decimal digits; anything else raises
`ValueError`.  (Python's underscore digit separators are not modelled.) -/
def pyIntOfString (s : String) : Except PErr Value :=
  let t := (pyStrip s).data
  let p :=
    if t.head? = some '-' then (true, t.tail)
    else if t.head? = some '+' then (false, t.tail)
    else (false, t)
  if p.2.length > 0 ∧ p.2.all Char.isDigit then
    let n : Int := p.2.foldl (fun acc c => acc * 10 + ((c.toNat : Int) - 48)) 0
    .ok (.vInt (if p.1 then -n else n))
  else
    .error (.valueError s)

/--
The matcher that `operator_like` builds: the pattern is `re.escape`d,
then `%` becomes `.*` and `_` becomes `.`, anchored on both sides — i.e.
SQL `LIKE` matching.  (The newline subtleties of Python's `.` and `$`
are not modelled; no claim depends on them.)
-/
def likeMatch : List Char → List Char → Bool
  | [], [] => true
  | '%' :: ps, [] => likeMatch ps []
  | _ :: _, [] => false
  | [], _ :: _ => false
  | '%' :: ps, c :: cs => likeMatch ps (c :: cs) || likeMatch ('%' :: ps) cs
  | '_' :: ps, _ :: cs => likeMatch ps cs
  | p :: ps, c :: cs => p = c && likeMatch ps cs
termination_by ps cs => (ps.length, cs.length)

/-- Python comparison `a < b` on two same-type values (`False < True`,
numeric order, code-point lexicographic order on strings). -/
def pyLt : Value → Value → Except PErr Bool
  | .vBool a, .vBool b => .ok (!a && b)
  | .vInt a, .vInt b => .ok (decide (a < b))
  | .vReal a, .vReal b => .ok (decide (a < b))
  | .vStr a, .vStr b => .ok (decide (a < b))
  | _, _ => .error .pyTypeError

/-- Python comparison `a <= b` on two same-type values (the complement
of `b < a` for these total orders). -/
def pyLe (a b : Value) : Except PErr Bool :=
  (pyLt b a).map fun r => !r

/-- Python `+` on two constants (`int + int` is an `int`, any `float`
operand promotes). -/
def litAdd : Value → Value → Except PErr Value
  | .vInt a, .vInt b => .ok (.vInt (a + b))
  | .vReal a, .vReal b => .ok (.vReal (a + b))
  | .vInt a, .vReal b => .ok (.vReal ((a : ℚ) + b))
  | .vReal a, .vInt b => .ok (.vReal (a + (b : ℚ)))
  | _, _ => .error .pyTypeError

/-- Python `-` on two constants. -/
def litSub : Value → Value → Except PErr Value
  | .vInt a, .vInt b => .ok (.vInt (a - b))
  | .vReal a, .vReal b => .ok (.vReal (a - b))
  | .vInt a, .vReal b => .ok (.vReal ((a : ℚ) - b))
  | .vReal a, .vInt b => .ok (.vReal (a - (b : ℚ)))
  | _, _ => .error .pyTypeError

/-- Python `*` on two constants. -/
def litMul : Value → Value → Except PErr Value
  | .vInt a, .vInt b => .ok (.vInt (a * b))
  | .vReal a, .vReal b => .ok (.vReal (a * b))
  | .vInt a, .vReal b => .ok (.vReal ((a : ℚ) * b))
  | .vReal a, .vInt b => .ok (.vReal (a * (b : ℚ)))
  | _, _ => .error .pyTypeError

/-- Python 3 `/` on two constants: *true* division — two `int`s give a
`float` — and division by zero raises. -/
def litDiv : Value → Value → Except PErr Value
  | .vInt a, .vInt b =>
    if b = 0 then .error .zeroDivision else .ok (.vReal ((a : ℚ) / (b : ℚ)))
  | .vReal a, .vReal b =>
    if b = 0 then .error .zeroDivision else .ok (.vReal (a / b))
  | .vInt a, .vReal b =>
    if b = 0 then .error .zeroDivision else .ok (.vReal ((a : ℚ) / b))
  | .vReal a, .vInt b =>
    if b = 0 then .error .zeroDivision else .ok (.vReal (a / (b : ℚ)))
  | _, _ => .error .pyTypeError

/-- Python `%` on two `int` constants: floor-sign modulo, raising on a
zero divisor. -/
def litMod : Value → Value → Except PErr Value
  | .vInt a, .vInt b =>
    if b = 0 then .error .zeroDivision else .ok (.vInt (Int.fmod a b))
  | _, _ => .error .pyTypeError

/-- Python `and`-as-`&&` fold on two boolean constants. -/
def litAndB : Value → Value → Except PErr Value
  | .vBool a, .vBool b => .ok (.vBool (a && b))
  | _, _ => .error .pyTypeError

/-- Python `or`-as-`||` fold on two boolean constants. -/
def litOrB : Value → Value → Except PErr Value
  | .vBool a, .vBool b => .ok (.vBool (a || b))
  | _, _ => .error .pyTypeError

/-- Python `+` on two string constants (the `.` concatenation fold). -/
def litConcat : Value → Value → Except PErr Value
  | .vStr a, .vStr b => .ok (.vStr (a ++ b))
  | _, _ => .error .pyTypeError

/-- The `like` fold on two string constants. -/
def litLike : Value → Value → Except PErr Value
  | .vStr a, .vStr b => .ok (.vBool (likeMatch b.toList a.toList))
  | _, _ => .error .pyTypeError

/-- The `unlike` fold on two string constants. -/
def litUnlike : Value → Value → Except PErr Value
  | .vStr a, .vStr b => .ok (.vBool (!likeMatch b.toList a.toList))
  | _, _ => .error .pyTypeError

/--
The value-level semantics of one binary operator application with both
operands plain constants — exactly what the operator methods of
`Parser` compute on the constant-folding path (`arg1 + arg2`,
`arg1 == arg2`, …).
-/
def litBin : String → Value → Value → Except PErr Value
  | "+", a, b => litAdd a b
  | "-", a, b => litSub a b
  | "*", a, b => litMul a b
  | "/", a, b => litDiv a b
  | "%", a, b => litMod a b
  | "==", a, b =>
    if a.ty = b.ty then .ok (.vBool (decide (a = b))) else .error .pyTypeError
  | "!=", a, b =>
    if a.ty = b.ty then .ok (.vBool (decide (a ≠ b))) else .error .pyTypeError
  | "<", a, b => (pyLt a b).map .vBool
  | "<=", a, b => (pyLe a b).map .vBool
  | ">", a, b => (pyLt b a).map .vBool
  | ">=", a, b => (pyLe b a).map .vBool
  | "&&", a, b => litAndB a b
  | "||", a, b => litOrB a b
  | ".", a, b => litConcat a b
  | "like", a, b => litLike a b
  | "unlike", a, b => litUnlike a b
  | _, _, _ => .error .pyTypeError

/-- The accepted type tuples of each binary operator's `@type_check`
decoration, or `none` for an operator unknown to the parser. -/
def binCombos : String → Option (List (Ty × Ty))
  | "+" | "-" | "*" | "/" => some [(.real, .real), (.int, .int)]
  | "%" => some [(.int, .int)]
  | "==" | "<=" | ">=" | "!=" | "<" | ">" =>
    some [(.bool, .bool), (.real, .real), (.int, .int), (.str, .str)]
  | "||" | "&&" | "and" => some [(.bool, .bool)]
  | "like" | "unlike" | "." => some [(.str, .str)]
  | _ => none

/-- The `name` that `type_check` reports, e.g. `operator '+'`. -/
def binOpErrName (op : String) : String :=
  "operator '" ++ op ++ "'"

/-- The SQL `operation` stored in the node a comparison builds via the
`DefaultOperationsMixin` (`==` builds a node whose operation is `=`). -/
def cmpNodeOp : String → String
  | "==" => "="
  | op => op

/--
When a comparison's left operand is a plain constant and its right
operand is a node, Python resolves `lit < node` through the *reflected*
method of the node, so the mixin builds the node with the operands
swapped and the comparison mirrored (`5 < This.X` becomes
`BinaryOpNode(">", This.X, 5, bool)`).
-/
def cmpMirror : String → String
  | "<" => ">"
  | "<=" => ">="
  | ">" => "<"
  | ">=" => "<="
  | op => cmpNodeOp op

/--
The body of the `Parser` method for one binary operator, run after its
`type_check` has accepted the operand types.  Each arm mirrors one
`operator_*` method of `giles/expression.py`: constants fold through
`litBin`, anything else builds the node the Python operator dispatch
builds.
-/
def binBody (p : Parser) (op : String) (x y : Expr) : Except PErr Expr :=
  match op with
  | "+" | "-" | "*" | "/" | "%" =>
    match x, y with
    | .lit a, .lit b => (litBin op a b).map Expr.lit
    | _, _ => .ok (mkBinOp op none x y none)
  | "==" | "!=" | "<" | "<=" | ">" | ">=" =>
    match x, y with
    | .lit a, .lit b => (litBin op a b).map Expr.lit
    | .lit a, y => .ok (mkBinOp (cmpMirror op) none y (.lit a) (some .bool))
    | x, y => .ok (mkBinOp (cmpNodeOp op) none x y (some .bool))
  | "&&" =>
    match x, y with
    | .lit a, .lit b => (litBin op a b).map Expr.lit
    | _, _ => .ok (mkBinOp "AND" none x y none)
  | "||" =>
    match x, y with
    | .lit a, .lit b => (litBin op a b).map Expr.lit
    | _, _ => .ok (mkBinOp "OR" none x y none)
  | "." =>
    match x, y with
    | .lit a, .lit b => (litBin op a b).map Expr.lit
    | _, _ => .ok (mkBinOp "||" (some ".") x y none)
  | "like" =>
    match x, y with
    | .lit a, .lit b => (litBin op a b).map Expr.lit
    | _, _ => .ok (mkBinOp "LIKE" none x y (some .bool))
  | "unlike" =>
    match x, y with
    | .lit a, .lit b => (litBin op a b).map Expr.lit
    | _, _ => .ok (mkBinOp "NOT LIKE" none x y (some .bool))
  | "and" =>
    -- operator_join: `if parser.this is None: raise ...; return JoinNode(arg1, arg2)`
    match p.thisAttr with
    | none => .error .joinOutsideMatch
    | some _ => .ok (.joinNode x y)
  | _ => .error (.unknownOperator op)

/--
One binary operator application as the parser performs it: the
`type_check` wrapper compares the tuple of actual operand types (the
node's `type` member, or `type(arg)` for a constant) against the
accepted combinations and raises an error naming the operator and the
actual types on a mismatch; otherwise the decorated method body runs.
-/
def applyBinary (p : Parser) (op : String) (x y : Expr) : Except PErr Expr :=
  match binCombos op with
  | none => .error (.unknownOperator op)
  | some combos =>
    if (x.type, y.type) ∈ combos then
      binBody p op x y
    else
      .error (.invalidTypes (binOpErrName op) [x.type, y.type])

/-- Accepted operand types of the unary operators (`@type_check(float,
int)` for sign, `@type_check(bool)` for `not`). -/
def unCombos : String → Option (List Ty)
  | "+" | "-" => some [.real, .int]
  | "not" => some [.bool]
  | _ => none

/-- Python unary `+` on a numeric constant. -/
def litPos : Value → Except PErr Value
  | .vInt a => .ok (.vInt a)
  | .vReal a => .ok (.vReal a)
  | _ => .error .pyTypeError

/-- Python unary `-` on a numeric constant. -/
def litNeg : Value → Except PErr Value
  | .vInt a => .ok (.vInt (-a))
  | .vReal a => .ok (.vReal (-a))
  | _ => .error .pyTypeError

/-- Python `not` on a boolean constant. -/
def litNot : Value → Except PErr Value
  | .vBool a => .ok (.vBool (!a))
  | _ => .error .pyTypeError

/-- Value-level semantics of one unary operator applied to a constant. -/
def litUn : String → Value → Except PErr Value
  | "+", a => litPos a
  | "-", a => litNeg a
  | "not", a => litNot a
  | _, _ => .error .pyTypeError

/-- The node built by one unary operator on a non-constant operand:
`operator_pos` returns its operand unchanged (`__pos__` returns
`self`), `operator_neg` builds `UnaryOpNode("neg", arg)` and
`operator_not` builds `UnaryOpNode("NOT", arg)`. -/
def unNode : String → Expr → Except PErr Expr
  | "+", x => .ok x
  | "-", x => .ok (mkUnOp "neg" x)
  | "not", x => .ok (mkUnOp "NOT" x)
  | op, _ => .error (.unknownOperator op)

/-- One unary operator application: the `type_check` gate, then the fold
on a constant or the node construction. -/
def applyUnary (op : String) (x : Expr) : Except PErr Expr :=
  match unCombos op with
  | none => .error (.unknownOperator op)
  | some combos =>
    if x.type ∈ combos then
      match x with
      | .lit a => (litUn op a).map Expr.lit
      | x => unNode op x
    else
      .error (.invalidTypes (binOpErrName op) [x.type])

/-- Accepted operand type and the `CastNode` target of each built-in
cast function of the parser. -/
def castSig : String → Option (Ty × Ty)
  | "string_of_bool" => some (.bool, .str)
  | "string_of_real" => some (.real, .str)
  | "string_of_int" => some (.int, .str)
  | "real_of_int" => some (.int, .real)
  | "int_of_real" => some (.real, .int)
  | "int_of_string" => some (.str, .int)
  | _ => none

/-- The `str(arg)` fold of `string_of_bool`. -/
def castStrOfBool : Value → Except PErr Value
  | .vBool b => .ok (.vStr (pyStrOfBool b))
  | _ => .error .pyTypeError

/-- The `str(arg)` fold of `string_of_real`. -/
def castStrOfReal : Value → Except PErr Value
  | .vReal q => .ok (.vStr (pyStrOfReal q))
  | _ => .error .pyTypeError

/-- The `str(arg)` fold of `string_of_int`. -/
def castStrOfInt : Value → Except PErr Value
  | .vInt n => .ok (.vStr (toString n))
  | _ => .error .pyTypeError

/-- The `float(arg)` fold of `real_of_int`. -/
def castRealOfInt : Value → Except PErr Value
  | .vInt n => .ok (.vReal (n : ℚ))
  | _ => .error .pyTypeError

/-- The `int(arg)` fold of `int_of_real`. -/
def castIntOfReal : Value → Except PErr Value
  | .vReal q => .ok (.vInt (pyTrunc q))
  | _ => .error .pyTypeError

/-- The `int(arg)` fold of `int_of_string`, which may raise
`ValueError`. -/
def castIntOfStr : Value → Except PErr Value
  | .vStr s => pyIntOfString s
  | _ => .error .pyTypeError

/-- Value-level semantics of one built-in cast applied to a constant. -/
def litCast : String → Value → Except PErr Value
  | "string_of_bool", a => castStrOfBool a
  | "string_of_real", a => castStrOfReal a
  | "string_of_int", a => castStrOfInt a
  | "real_of_int", a => castRealOfInt a
  | "int_of_real", a => castIntOfReal a
  | "int_of_string", a => castIntOfStr a
  | _, _ => .error .pyTypeError

/-- One built-in cast application: constants fold, anything else becomes
a `CastNode` with the declared target type. -/
def applyCast (f : String) (x : Expr) : Except PErr Expr :=
  match castSig f with
  | none => .error (.unknownFunction f)
  | some sig =>
    if x.type = sig.1 then
      match x with
      | .lit a => (litCast f a).map Expr.lit
      | x => .ok (.castNode x sig.2)
    else
      .error (.invalidTypes ("function '" ++ f ++ "'") [x.type])

/-- Accepted type triples of the built-in `if` function
(`@type_check((bool, bool, bool), (bool, float, float), …)`). -/
def ifCombos : List (Ty × Ty × Ty) :=
  [(.bool, .bool, .bool), (.bool, .real, .real), (.bool, .int, .int), (.bool, .str, .str)]

/-- `function_if`: a constant predicate selects a branch, otherwise an
`IfNode` is built (typed from the true branch). -/
def applyIf (c t e : Expr) : Except PErr Expr :=
  if (c.type, t.type, e.type) ∈ ifCombos then
    match c with
    | .lit (.vBool b) => .ok (if b then t else e)
    | _ => .ok (.ifNode c t e t.type)
  else
    .error (.invalidTypes ("function 'if'") [c.type, t.type, e.type])

/--
A source expression, as the shape the token stream gives the parser:
leaves are literal constants or the (already typed) `This.X` /
`Locals.X` references the tokenizer resolves, and interior positions are
operator and built-in function applications.
-/
inductive SExp : Type where
  | slit : Value → SExp
  | sthis : String → Ty → SExp
  | sloc : String → Ty → SExp
  | sbin : String → SExp → SExp → SExp
  | sun : String → SExp → SExp
  | scast : String → SExp → SExp
  | sif : SExp → SExp → SExp → SExp

/--
Evaluation of a source expression by the parser: `pyre.Parser.evaluate`
pops the RPN stack and applies each operator / function to the results
of evaluating its operands (operands are evaluated right to left), which
on the tree view is this bottom-up recursion.
-/
def evalS (p : Parser) : SExp → Except PErr Expr
  | .slit v => .ok (.lit v)
  | .sthis n t => .ok (.thisRef n t)
  | .sloc n t => .ok (.localRef n t)
  | .sbin op a b => do
    let y ← evalS p b
    let x ← evalS p a
    applyBinary p op x y
  | .sun op a => do
    let x ← evalS p a
    applyUnary op x
  | .scast f a => do
    let x ← evalS p a
    applyCast f x
  | .sif c t e => do
    let z ← evalS p e
    let y ← evalS p t
    let x ← evalS p c
    applyIf x y z

/-- Type checking plus value semantics of one binary application, on
values. -/
def mathBinApp (op : String) (a b : Value) : Except PErr Value :=
  match binCombos op with
  | none => .error (.unknownOperator op)
  | some combos =>
    if (a.ty, b.ty) ∈ combos then litBin op a b
    else .error (.invalidTypes (binOpErrName op) [a.ty, b.ty])

/-- Type checking plus value semantics of one unary application, on
values. -/
def mathUnApp (op : String) (a : Value) : Except PErr Value :=
  match unCombos op with
  | none => .error (.unknownOperator op)
  | some combos =>
    if a.ty ∈ combos then litUn op a
    else .error (.invalidTypes (binOpErrName op) [a.ty])

/-- Type checking plus value semantics of one cast application, on
values. -/
def mathCastApp (f : String) (a : Value) : Except PErr Value :=
  match castSig f with
  | none => .error (.unknownFunction f)
  | some sig =>
    if a.ty = sig.1 then litCast f a
    else .error (.invalidTypes ("function '" ++ f ++ "'") [a.ty])

/-- Type checking plus value semantics of the ternary `if`, on values. -/
def mathIfApp (x y z : Value) : Except PErr Value :=
  if (x.ty, y.ty, z.ty) ∈ ifCombos then
    match x with
    | .vBool b => .ok (if b then y else z)
    | _ => .error .pyTypeError
  else
    .error (.invalidTypes ("function 'if'") [x.ty, y.ty, z.ty])

/--
The mathematical value of a source expression: the direct recursive
evaluation of its operators and built-in functions on values, with the
language's declared signatures.  This is the reference semantics the
constant-folding claim compares the parser against.
-/
def mathEval : SExp → Except PErr Value
  | .slit v => .ok v
  | .sthis _ _ => .error .nonConstant
  | .sloc _ _ => .error .nonConstant
  | .sbin op a b => do
    let y ← mathEval b
    let x ← mathEval a
    mathBinApp op x y
  | .sun op a => do
    let x ← mathEval a
    mathUnApp op x
  | .scast f a => do
    let x ← mathEval a
    mathCastApp f x
  | .sif c t e => do
    let z ← mathEval e
    let y ← mathEval t
    let x ← mathEval c
    mathIfApp x y z

/-- Python exceptions of the analysis / lowering code (`Exception` with a
message, `KeyError`, `IndexError`, `AttributeError`). -/
inductive PyExc : Type where
  | exc : String → PyExc
  | keyError : String → PyExc
  | indexError : PyExc
  | attributeError : PyExc
deriving DecidableEq, Repr

section AssocList

variable {κ β : Type} [DecidableEq κ]

/-- Python dictionary lookup on an insertion-ordered association list. -/
def alGet : List (κ × β) → κ → Option β
  | [], _ => none
  | (g, v) :: rest, k => if g = k then some v else alGet rest k

/-- Python dictionary assignment `d[k] = v`: replace in place, or append. -/
def alSet : List (κ × β) → κ → β → List (κ × β)
  | [], k, v => [(k, v)]
  | (g, w) :: rest, k, v => if g = k then (g, v) :: rest else (g, w) :: alSet rest k v

/-- Python dictionary deletion `del d[k]` (the key is known present). -/
def alRemove : List (κ × β) → κ → List (κ × β)
  | [], _ => []
  | (g, w) :: rest, k => if g = k then rest else (g, w) :: alRemove rest k

end AssocList

mutual

/-- `find_locals` of `giles/sqlite_backend.py`: the list of local
variables referenced in an expression, in traversal order. -/
def find_locals : Expr → List String
  | .localRef v _ => [v]
  | .binOp _ _ a b _ => find_locals a ++ find_locals b
  | .unOp _ _ a _ => find_locals a
  | .ifNode c t e _ => find_locals c ++ find_locals t ++ find_locals e
  | .funcNode _ _ args _ => find_locals_args args
  | .castNode e _ => find_locals e
  | .joinNode l r => find_locals l ++ find_locals r
  | _ => []

/-- The loop over `value.args` of a `FunctionNode` in `find_locals`. -/
def find_locals_args : List Expr → List String
  | [] => []
  | e :: es => find_locals e ++ find_locals_args es

end

/-- The `'%s'` quoting of `generate_expression`: single quotes double. -/
def sqlQuote (s : String) : String :=
  ⟨s.data.foldr (fun c acc => if c = '\'' then '\'' :: '\'' :: acc else c :: acc) []⟩

/-- The `CAST` target names of `generate_expression`. -/
def sqlCastKind : Ty → String
  | .bool => "integer"
  | .int => "integer"
  | .real => "real"
  | .str => "text"

/-- A reference rendered with its table alias: the source formats
`'%s%s' % ((p + '.') if p else '', var)`, where both `None` and the
empty string count as falsy. -/
def renderRef (pre : Option String) (v : String) : String :=
  match pre with
  | some p => if p = "" then v else p ++ "." ++ v
  | none => v

mutual

/--
`generate_expression` of `giles/sqlite_backend.py`: renders an
expression (or plain constant) as a SQL fragment.  Booleans become
`1`/`0`, strings are single-quote escaped, references get the frame /
fact prefix as alias, and a `JoinNode` is flattened with equality tests
placed before the inequality tests.
-/
def generate_expression (value : Expr) (fact : String) (framePre factPre : Option String) : String :=
  match value with
  | .lit (.vInt n) => toString n
  | .lit (.vReal q) => pyStrOfReal q
  | .lit (.vBool b) => if b then "1" else "0"
  | .lit (.vStr s) => "'" ++ sqlQuote s ++ "'"
  | .thisRef v _ => renderRef factPre v
  | .localRef v _ => renderRef framePre v
  | .binOp oper _ a b _ =>
    "(" ++ generate_expression a fact framePre factPre ++ ") " ++ oper ++
      " (" ++ generate_expression b fact framePre factPre ++ ")"
  | .unOp oper _ a _ =>
    "(" ++ oper ++ "(" ++ generate_expression a fact framePre factPre ++ "))"
  | .ifNode c t e _ =>
    "(CASE WHEN (" ++ generate_expression c fact framePre factPre ++ ") THEN (" ++
      generate_expression t fact framePre factPre ++ ") ELSE (" ++
      generate_expression e fact framePre factPre ++ ") END)"
  | .funcNode _ ext args _ =>
    ext ++ "(" ++ ",".intercalate (generate_expression_args args fact framePre factPre) ++ ")"
  | .castNode e t =>
    "CAST((" ++ generate_expression e fact framePre factPre ++ ") AS " ++ sqlCastKind t ++ ")"
  | .joinNode l r =>
    let pl := generate_join_parts l fact framePre factPre
    let pr := generate_join_parts r fact framePre factPre
    " AND ".intercalate ((pl.1 ++ pr.1) ++ (pl.2 ++ pr.2))

/-- The argument loop of the `FunctionNode` branch. -/
def generate_expression_args (args : List Expr) (fact : String) (framePre factPre : Option String) :
    List String :=
  match args with
  | [] => []
  | e :: es =>
    generate_expression e fact framePre factPre :: generate_expression_args es fact framePre factPre

/-- The `flatten` helper of the `JoinNode` branch of
`generate_expression`: rendered equality tests (operation `=`) and
rendered other tests, in flattening order. -/
def generate_join_parts (n : Expr) (fact : String) (framePre factPre : Option String) :
    List String × List String :=
  match n with
  | .joinNode l r =>
    let pl := generate_join_parts l fact framePre factPre
    let pr := generate_join_parts r fact framePre factPre
    (pl.1 ++ pr.1, pl.2 ++ pr.2)
  | .binOp oper nm a b ty =>
    if oper = "=" then
      ([generate_expression (.binOp oper nm a b ty) fact framePre factPre], [])
    else
      ([], [generate_expression (.binOp oper nm a b ty) fact framePre factPre])
  | n => ([], [generate_expression n fact framePre factPre])

end

/--
The per-table index-demand tree of `giles/sqlite_backend.py` (the
global `indexes` dictionary maps a table name to one of these): nested
insertion-ordered dictionaries whose keys are field names.
-/
inductive ITree (α : Type) : Type where
  | mk : List (α × ITree α) → ITree α

/-- The child dictionary of a tree node. -/
def ITree.children {α : Type} : ITree α → List (α × ITree α)
  | .mk cs => cs

section IndexTree

variable {α : Type} [DecidableEq α]

/--
The descent loop of `add_index`: `for field in fields: if field not in
current: current[field] = {}; current = current[field]` — walking the
tree along the field sequence, creating missing children, leaving
everything else untouched.
-/
def insertPath (t : ITree α) : List α → ITree α
  | [] => t
  | f :: rest =>
    .mk (alSet t.children f (insertPath ((alGet t.children f).getD (.mk [])) rest))

/-- The per-compilation `indexes` map: table name → index-demand tree. -/
abbrev Indexes (α : Type) := List (String × ITree α)

/--
`add_index(table, fields)` of `giles/sqlite_backend.py`: lower-cases the
table name, returns immediately on an empty field sequence, creates the
table's tree on demand and records the field sequence as a path.
-/
def add_index (idx : Indexes α) (table : String) (fields : List α) : Indexes α :=
  let table := pyLower table
  if fields = [] then idx
  else alSet idx table (insertPath ((alGet idx table).getD (.mk [])) fields)

mutual

/-- The `dft` helper of `generate`: a childless node invokes the leaf
callback with the accumulated path, otherwise each child is walked with
the path extended by its key. -/
def dft_paths : ITree α → List α → List (List α)
  | .mk [], path => [path]
  | .mk (c :: cs), path => dft_children (c :: cs) path

/-- The child loop of `dft`. -/
def dft_children : List (α × ITree α) → List α → List (List α)
  | [], _ => []
  | (k, t) :: cs, path => dft_paths t (path ++ [k]) ++ dft_children cs path

end

/-- The `CREATE INDEX` paths emitted for one table: the depth-first walk
of its tree (no table entry, no indexes). -/
def emitted_leaf_paths (idx : Indexes α) (table : String) : List (List α) :=
  match alGet idx table with
  | none => []
  | some t => dft_paths t []

/-- Registering a sequence of index demands for one table, in order. -/
def build_demands (table : String) (ds : List (List α)) : Indexes α :=
  ds.foldl (fun idx d => add_index idx table d) []

/-- The subtree of `t` reached by walking the field sequence `q`. -/
def subtreeAt : ITree α → List α → Option (ITree α)
  | t, [] => some t
  | t, f :: rest =>
    match alGet t.children f with
    | none => none
    | some c => subtreeAt c rest

/-- Every node's child dictionary has pairwise distinct keys — the
invariant every tree reachable through `add_index` enjoys. -/
def treeWf : ITree α → Bool
  | .mk cs => decide ((cs.map Prod.fst).Nodup) && cs.attach.all fun c => treeWf c.1.2
termination_by t => sizeOf t
decreasing_by
  obtain ⟨⟨k, s⟩, hmem⟩ := c
  have := List.sizeOf_lt_of_mem hmem
  simp at this ⊢
  omega

/-- Registering one demand against one table's optional tree. -/
def insertDemand (o : Option (ITree α)) (d : List α) : Option (ITree α) :=
  if d = [] then o else some (insertPath (o.getD (.mk [])) d)

/-- The field sequence `q` names a node of the optional tree. -/
def nodeIn (o : Option (ITree α)) (q : List α) : Prop :=
  ∃ t, o = some t ∧ (subtreeAt t q).isSome

/-- The field sequence `q` names a childless node of the optional tree. -/
def leafIn (o : Option (ITree α)) (q : List α) : Prop :=
  ∃ t, o = some t ∧ subtreeAt t q = some (.mk [])

end IndexTree

/-- The sort key of `generate_join`: `str(x.arg1.variable).lower()`. -/
def testSortKey : Expr → String
  | .binOp _ _ (.thisRef v _) _ _ => pyLower v
  | .binOp _ _ (.localRef v _) _ _ => pyLower v
  | _ => ""

/-- The `arg1.variable` of a predicate (the survivors of the
`generate_join` flattening always have a `This` reference there). -/
def arg1VarName : Expr → String
  | .binOp _ _ (.thisRef v _) _ _ => v
  | .binOp _ _ (.localRef v _) _ _ => v
  | _ => ""

/-- Stable insertion of an element into a list sorted by a string key
(ties keep the existing elements first, as Python's stable sort does). -/
def insSorted (key : Expr → String) (x : Expr) : List Expr → List Expr
  | [] => [x]
  | y :: ys => if key x < key y then x :: y :: ys else y :: insSorted key x ys

/-- Stable sort by a string key, modelling Python's `list.sort(key=…)`. -/
def insSortBy (key : Expr → String) : List Expr → List Expr
  | [] => []
  | x :: xs => insSorted key x (insSortBy key xs)

/--
The `flatten` helper of `generate_join`: walks a `Join` tree and keeps
each leaf that is a boolean `BinaryOpNode` whose `arg1` is a `This`
reference and whose `arg2` either is not a plain constant or constants
are included; the kept leaf goes to the equality list when its operation
is `=` and to the inequality list otherwise.
-/
def flatten_join_tests (includeConstants : Bool) : Expr → List Expr × List Expr
  | .joinNode l r =>
    let pl := flatten_join_tests includeConstants l
    let pr := flatten_join_tests includeConstants r
    (pl.1 ++ pr.1, pl.2 ++ pr.2)
  | .binOp oper nm a1 a2 ty =>
    if ty = .bool ∧ a1.isThisRef = true ∧ (a2.isLit = false ∨ includeConstants = true) then
      if oper = "=" then ([.binOp oper nm a1 a2 ty], []) else ([], [.binOp oper nm a1 a2 ty])
    else ([], [])
  | _ => ([], [])

/-- The predicates surviving the `flatten` of `generate_join` — an
absent `when` contributes nothing. -/
def join_survivors (when : Option Expr) (includeConstants : Bool) : List Expr × List Expr :=
  match when with
  | some w => flatten_join_tests includeConstants w
  | none => ([], [])

/--
`generate_join` of `giles/sqlite_backend.py`.  Flattens the `when`
tree, partitions and sorts the surviving predicates, renders
`eq AND … AND ineq AND …`, returns `None` when nothing survives, and
otherwise records the index demands for the frame prefix (local
variables of the equalities, plus the first inequality's locals) and the
fact prefix (the `arg1` fields of the equalities, plus the first
inequality's field) unless the prefix is the immediately-available
`new`/`old` frame.  A `None` prefix reaching `add_index` raises
(`None.lower()` — `AttributeError`), as in the source.
-/
def generate_join (when : Option Expr) (fact : String) (framePre factPre : Option String)
    (includeConstants : Bool) (idx : Indexes String) :
    Except PyExc (Option String × Indexes String) :=
  let framePre := framePre.map pyLower
  let factPre := factPre.map pyLower
  let parts := join_survivors when includeConstants
  let equalities := insSortBy testSortKey parts.1
  let inequalities := insSortBy testSortKey parts.2
  let eqPred :=
    " AND ".intercalate
      (equalities.map fun q => pyStrip (generate_expression q fact framePre factPre))
  let ineqPred :=
    " AND ".intercalate
      (inequalities.map fun q => pyStrip (generate_expression q fact framePre factPre))
  let result :=
    eqPred ++ (if pyStrip eqPred ≠ "" ∧ pyStrip ineqPred ≠ "" then " AND " else "") ++ ineqPred
  if pyStrip result = "" then
    .ok (none, idx)
  else do
    let idx ←
      if framePre ∉ ([some "new", some "old"] : List (Option String)) then
        let eqVars := equalities.foldl (fun acc q => acc ++ find_locals q) []
        match inequalities with
        | iq :: _ =>
          match framePre with
          | none => .error .attributeError
          | some t => .ok (add_index idx t (eqVars ++ find_locals iq))
        | [] =>
          if eqVars.length > 0 then
            match framePre with
            | none => .error .attributeError
            | some t => .ok (add_index idx t eqVars)
          else .ok idx
      else .ok idx
    let idx ←
      if factPre ∉ ([some "new", some "old"] : List (Option String)) then
        let eqVars := equalities.foldl (fun acc q => acc ++ [arg1VarName q]) []
        match inequalities with
        | iq :: _ =>
          match factPre with
          | none => .error .attributeError
          | some t => .ok (add_index idx t (eqVars ++ [arg1VarName iq]))
        | [] =>
          if eqVars.length > 0 then
            match factPre with
            | none => .error .attributeError
            | some t => .ok (add_index idx t eqVars)
          else .ok idx
      else .ok idx
    .ok (some result, idx)

/-- A match clause of the rule IR built by `giles.py` (`fact`, optional
`when` AST, and the ordered `assignments` dictionary). -/
structure MatchM : Type where
  fact : String
  whenPred : Option Expr
  assignments : List (String × Expr)

/-- A rule of the rule IR, restricted to the members the
synthetic-assignment pass reads and writes. -/
structure RuleM : Type where
  locals : List (String × Ty)
  matchList : List MatchM
  inverted_matches : List MatchM

mutual

/--
`immediate_substitute` of `giles/sqlite_backend.py`: replace every
*child* position holding a local reference to `usedVar` by `actual`,
recursively through binary, unary, if, function and cast nodes.  The
source mutates nodes in place; this is the same transformation as a
functional rebuild.
-/
def immediate_substitute (predicate : Expr) (usedVar : String) (actual : Expr) : Expr :=
  match predicate with
  | .binOp op nm a1 a2 ty =>
    .binOp op nm (substitute_child a1 usedVar actual) (substitute_child a2 usedVar actual) ty
  | .unOp op nm a1 ty => .unOp op nm (substitute_child a1 usedVar actual) ty
  | .ifNode c t e ty =>
    .ifNode (substitute_child c usedVar actual) (substitute_child t usedVar actual)
      (substitute_child e usedVar actual) ty
  | .funcNode nm ext args ty => .funcNode nm ext (substitute_children args usedVar actual) ty
  | .castNode e ty => .castNode (substitute_child e usedVar actual) ty
  | p => p

/-- One child position: a matching local reference is replaced, anything
else is substituted recursively. -/
def substitute_child (c : Expr) (usedVar : String) (actual : Expr) : Expr :=
  match c with
  | .localRef v t => if v = usedVar then actual else .localRef v t
  | c => immediate_substitute c usedVar actual

/-- The argument loop of the `FunctionNode` case. -/
def substitute_children (cs : List Expr) (usedVar : String) (actual : Expr) : List Expr :=
  match cs with
  | [] => []
  | c :: rest => substitute_child c usedVar actual :: substitute_children rest usedVar actual

end

/-- The collection condition of `flatten_local_predicates`: a boolean
`BinaryOpNode` whose `arg1` is a `This` reference and whose `arg2`
mentions at least one local. -/
def is_local_predicate (w : Expr) : Bool :=
  match w with
  | .binOp _ _ a1 a2 ty => ty = .bool && a1.isThisRef && (find_locals a2).length > 0
  | _ => false

/-- Python list indexing with negative indexes counted from the end;
`none` is an `IndexError`. -/
def pyListIdx (len : Nat) (j : Int) : Option Nat :=
  if 0 ≤ j then (if j < (len : Int) then some j.toNat else none)
  else (if 0 ≤ (len : Int) + j then some ((len : Int) + j).toNat else none)

/--
`generate_synthetic_assignment(predicate, rule, prev_clause,
synthetic_name)` of `giles/sqlite_backend.py` with `prev_clause =
rule.matchList[prevIdx]`: registers the synthetic local with the
predicate's type, substitutes `prev_clause`'s assignments into the
predicate (the iteration order of the Python set of used variables is
modelled as first-occurrence order; substitutions of distinct variables
commute), and stores the result as a new assignment on `prev_clause`.
Returns the updated rule.
-/
def generate_synthetic_assignment (rule : RuleM) (prevIdx : Nat) (predicate : Expr)
    (syntheticName : String) : RuleM :=
  let rule := { rule with locals := alSet rule.locals syntheticName predicate.type }
  match rule.matchList.get? prevIdx with
  | none => rule
  | some prev =>
    let usedVars := (find_locals predicate).dedup.filter fun u => (alGet prev.assignments u).isSome
    let predicate := usedVars.foldl
      (fun acc u =>
        match alGet prev.assignments u with
        | some act => immediate_substitute acc u act
        | none => acc)
      predicate
    let prev := { prev with assignments := alSet prev.assignments syntheticName predicate }
    { rule with matchList := rule.matchList.set prevIdx prev }

/-- State threaded through the synthetic-assignment pass: the rule being
rewritten and the global `synthetic_assignment_count`. -/
structure SynthState : Type where
  rule : RuleM
  counter : Nat

/--
The inner predicate loop of the synthetic-assignment pass, as a single
walk over a `when` tree (`flatten_local_predicates` collects exactly the
non-`Join` leaves this walk visits, in the same order).  At each
qualifying leaf whose locals meet the snapshot of clause `i`'s
assignments and whose `arg2` is not already a bare local reference, the
counter is bumped, `prev_clause = rule.matchList[j - 2]` is selected by
Python indexing (`j` is the position in the chained iteration), the
synthetic assignment is generated there, and the leaf's `arg2` is
replaced by a reference to the synthetic local.
-/
def rewrite_when_tree (snapshot : List String) (j : Nat) (st : SynthState) :
    Expr → Except PyExc (SynthState × Expr)
  | .joinNode l r => do
    let (st, l') ← rewrite_when_tree snapshot j st l
    let (st, r') ← rewrite_when_tree snapshot j st r
    .ok (st, .joinNode l' r')
  | .binOp op nm a1 a2 ty =>
    if is_local_predicate (.binOp op nm a1 a2 ty) then
      if ((find_locals (.binOp op nm a1 a2 ty)).any fun v => decide (v ∈ snapshot)) &&
          !a2.isLocalRef then
        let counter := st.counter + 1
        let sname := "synthetic_assignment_" ++ toString counter
        match pyListIdx st.rule.matchList.length ((j : Int) - 2) with
        | none => .error .indexError
        | some p =>
          let rule := generate_synthetic_assignment st.rule p a2 sname
          .ok (⟨rule, counter⟩, .binOp op nm a1 (.localRef sname a2.type) ty)
      else .ok (st, .binOp op nm a1 a2 ty)
    else .ok (st, .binOp op nm a1 a2 ty)
  | w => .ok (st, w)

/-- The position of chain element `j` of
`chain(rule.matchList[i + 1:], rule.inverted_matches)`: `true` with an
index into `matches`, or `false` with an index into
`inverted_matches`. -/
def chain_clause_loc (rule : RuleM) (i j : Nat) : Bool × Nat :=
  let npos := rule.matchList.length - (i + 1)
  if j < npos then (true, i + 1 + j) else (false, j - npos)

/-- Read the chained clause at a location. -/
def get_clause (rule : RuleM) (loc : Bool × Nat) : Option MatchM :=
  if loc.1 then rule.matchList.get? loc.2 else rule.inverted_matches.get? loc.2

/-- Write back the rewritten `when` of the chained clause at a
location. -/
def set_clause_when (rule : RuleM) (loc : Bool × Nat) (w : Expr) : RuleM :=
  if loc.1 then
    match rule.matchList.get? loc.2 with
    | some m => { rule with matchList := rule.matchList.set loc.2 { m with whenPred := some w } }
    | none => rule
  else
    match rule.inverted_matches.get? loc.2 with
    | some m =>
      { rule with inverted_matches := rule.inverted_matches.set loc.2 { m with whenPred := some w } }
    | none => rule

/-- One step of the `for j, subsequent_clause in enumerate(chain(…))`
loop: clauses without a `when` are skipped, otherwise the `when` tree is
rewritten and stored back. -/
def synth_step_j (snapshot : List String) (i : Nat) (st : SynthState) (j : Nat) :
    Except PyExc SynthState := do
  let loc := chain_clause_loc st.rule i j
  match get_clause st.rule loc with
  | none => .ok st
  | some clause =>
    match clause.whenPred with
    | none => .ok st
    | some w => do
      let (st, w') ← rewrite_when_tree snapshot j st w
      .ok ⟨set_clause_when st.rule loc w', st.counter⟩

/-- One step of the `for i, match_clause in enumerate(rule["matches"])`
loop: the snapshot of clause `i`'s assignment names is taken once, then
every subsequent chained clause is processed. -/
def synth_step_i (st : SynthState) (i : Nat) : Except PyExc SynthState :=
  match st.rule.matchList.get? i with
  | none => .ok st
  | some mc =>
    let snapshot := mc.assignments.map Prod.fst
    let chainLen := (st.rule.matchList.length - (i + 1)) + st.rule.inverted_matches.length
    (List.range chainLen).foldlM (synth_step_j snapshot i) st

/-- The whole synthetic-assignment optimisation pass of `generate`
(`giles/sqlite_backend.py`) over one rule, returning the rewritten rule
and the final `synthetic_assignment_count`. -/
def synthetic_pass (rule : RuleM) : Except PyExc (RuleM × Nat) := do
  let st ← (List.range rule.matchList.length).foldlM synth_step_i ⟨rule, 0⟩
  .ok (st.rule, st.counter)

/-- One entry of the validated `Parameters` section: the evaluated
`Default` literal, the optional raw `Lower`/`Upper` limits and the
optional `Dictionary` flag.  (Limits are modelled as already-evaluated
literals; the claims below only exercise paths where this is
immaterial.) -/
structure ParamClause : Type where
  defaultVal : Value
  lower : Option Value
  upper : Option Value
  dictionary : Option Bool

/-- The in-construction `parameters[name]` dictionary (`"default"`,
`"lower"`, `"upper"`, `"dictionary"`); `none` values model Python
`None`. -/
structure ParamRec : Type where
  fields : List (String × Option Value)

/-- The mutable state of the parameter-evaluation loop of `giles.py`:
the `facts` and `parameters` dictionaries and the global error count. -/
structure ParamState : Type where
  facts : List (String × List (String × Ty))
  parameters : List (String × ParamRec)
  errorCount : Nat

/-- Assignment `parameters[name][field] = v`. -/
def setParamField (st : ParamState) (name field : String) (v : Option Value) : ParamState :=
  match alGet st.parameters name with
  | none => st
  | some rec0 =>
    { st with parameters := alSet st.parameters name ⟨alSet rec0.fields field v⟩ }

/--
The `try` body of one iteration of the parameter loop of `giles.py`
(lines 492–546): collision check first, then `parameters[name] = {}`,
default evaluation, numeric-limit checks, the implicit fact and the
dictionary flag.  Returns the state as mutated so far together with the
exception raised, if any — the partial mutations stay visible to the
`except` handler, as in Python.
-/
def param_try_body (st : ParamState) (name : String) (pv : ParamClause) :
    ParamState × Option PyExc :=
  if (alGet st.facts name).isSome then
    (st, some (.exc ("Collision between parameter '" ++ name ++ "' and an identically-named fact")))
  else
    let st := { st with parameters := alSet st.parameters name ⟨[]⟩ }
    let st := setParamField st name "default" (some pv.defaultVal)
    if pv.defaultVal.ty = .int ∨ pv.defaultVal.ty = .real then
      match pv.lower with
      | none => (st, some (.exc ("Invalid parameter '" ++ name ++ "': no lower limit specified")))
      | some lo =>
        match pv.upper with
        | none => (st, some (.exc ("Invalid parameter '" ++ name ++ "': no upper limit specified")))
        | some up =>
          if up.ty = lo.ty ∧ up.ty = pv.defaultVal.ty then
            match pyLt up lo with
            | .ok true => (st, some (.exc ("Invalid parameter '" ++ name ++ "': limits out of order")))
            | .ok false =>
              let st := setParamField st name "lower" (some lo)
              let st := setParamField st name "upper" (some up)
              match pyLt pv.defaultVal lo, pyLt up pv.defaultVal with
              | .ok dlo, .ok dup =>
                if dlo ∨ dup then
                  (st, some (.exc ("Invalid parameter '" ++ name ++
                    "': default value is outside of specified limits")))
                else
                  param_finish st name pv
              | _, _ => (st, some .attributeError)
            | .error _ => (st, some .attributeError)
          else
            (st, some (.exc ("Invalid parameter '" ++ name ++
              "': types of default and limits do not agree")))
    else
      if pv.lower.isSome ∨ pv.upper.isSome then
        (st, some (.exc ("Invalid parameter '" ++ name ++
          "': cannot specify limits on non-numeric types")))
      else
        let st := setParamField st name "lower" none
        let st := setParamField st name "upper" none
        param_finish st name pv

where
  /-- The tail of the `try` body: `facts[name] = {Value: type}` plus the
  dictionary flag and its `Key` field. -/
  param_finish (st : ParamState) (name : String) (pv : ParamClause) :
      ParamState × Option PyExc :=
    let st := { st with facts := alSet st.facts name [("Value", pv.defaultVal.ty)] }
    if pv.dictionary = some true then
      let st := setParamField st name "dictionary" (some (.vBool true))
      let st :=
        { st with
          facts := alSet st.facts name (alSet ((alGet st.facts name).getD []) "Key" .str) }
      (st, none)
    else
      (setParamField st name "dictionary" (some (.vBool false)), none)

/--
One iteration of the parameter loop with its `except` handler: on an
exception the handler runs `del parameters[name]` — which itself raises
an uncaught `KeyError` when the entry was never inserted — then deletes
`facts[name]` when present and counts the error.
-/
def param_entry (st : ParamState) (name : String) (pv : ParamClause) :
    Except PyExc ParamState :=
  match param_try_body st name pv with
  | (st', none) => .ok st'
  | (st', some _) =>
    if (alGet st'.parameters name).isSome then
      let st' := { st' with parameters := alRemove st'.parameters name }
      let st' :=
        if (alGet st'.facts name).isSome then { st' with facts := alRemove st'.facts name }
        else st'
      .ok { st' with errorCount := st'.errorCount + 1 }
    else
      .error (.keyError name)

/-- The whole `Parameters` evaluation loop of `giles.py`, in document
order; an escaped exception aborts compilation. -/
def evaluate_parameters (st : ParamState) (entries : List (String × ParamClause)) :
    Except PyExc ParamState :=
  entries.foldlM (fun st nv => param_entry st nv.1 nv.2) st

/-- A failure of a validator of `giles/validate.py`, with its human
message. -/
inductive VErr : Type where
  | validation : String → VErr
deriving DecidableEq, Repr

/--
`List.__call__` of `giles/validate.py`, applied to a list: the
minimum-length gate reads `len(obj) < self.min_length`, the
maximum-length gate reads `len(obj) < self.max_length` — as in the
source — and then the member validator is applied to each element in
order with the element's location.
-/
def list_validate {α β : Type} (member : String → α → Except VErr β)
    (minLen maxLen : Option Nat) (obj : List α) (location : String) :
    Except VErr (List β) := do
  match minLen with
  | some m =>
    if obj.length < m then
      throw (.validation ("Expected a list of at least length " ++ toString m))
    else pure ()
  | none => pure ()
  match maxLen with
  | some m =>
    if obj.length < m then
      throw (.validation ("Expected a list of at most length " ++ toString m))
    else pure ()
  | none => pure ()
  obj.enum.mapM fun p => member (location ++ "[" ++ toString p.1 ++ "]") p.2

/-- An error raised during rule analysis in `giles.py`. -/
inductive RErr : Type where
  | notJoinable : Expr → RErr

/--
The joinable-predicate shape accepted by rule analysis (`giles.py`
lines 601–605 and 636–640): a `JoinNode`, or a `BinaryOpNode` whose
`arg1` is a `This` reference.
-/
def joinable_shape (w : Expr) : Bool :=
  match w with
  | .joinNode _ _ => true
  | .binOp _ _ a1 _ _ => a1.isThisRef
  | _ => false

/-- The `when` check performed on one match clause: absent predicates
pass, a present predicate must have the joinable shape. -/
def check_match_when (w : Option Expr) : Except RErr Unit :=
  match w with
  | none => .ok ()
  | some e => if joinable_shape e then .ok () else .error (.notJoinable e)

/-- The `when`-shape portion of the analysis of one rule: positive
matches in order, then inverted matches in order, stopping at the first
failure (the raised exception aborts the rule's analysis). -/
def analyze_rule_whens (whens inverted : List (Option Expr)) : Except RErr Unit := do
  whens.forM check_match_when
  inverted.forM check_match_when

/-- One iteration of the rule loop's error containment: a rule whose
analysis raises is not added to the rule map and the error count is
incremented; a clean rule is added. -/
def load_rules_step (acc : List String × Nat)
    (entry : String × (List (Option Expr) × List (Option Expr))) : List String × Nat :=
  match analyze_rule_whens entry.2.1 entry.2.2 with
  | .ok _ => (acc.1 ++ [entry.1], acc.2)
  | .error _ => (acc.1, acc.2 + 1)

/-- The rule loop of `giles.py` restricted to the `when`-shape checks:
returns the names of the retained rules and the error count. -/
def load_rules (entries : List (String × (List (Option Expr) × List (Option Expr)))) :
    List String × Nat :=
  entries.foldl load_rules_step ([], 0)

section Cycle

variable {α : Type} [DecidableEq α]

/--
The scan of `for node in edges(top)` inside `find_cycle`: the first
neighbour found on the stack is reported as a cycle witness (`inl`),
otherwise the first neighbour still in `todo` is reported for pushing
(`inr`), otherwise nothing.
-/
def scan_edges (stack todo : List α) : List α → Option (α ⊕ α)
  | [] => none
  | n :: rest =>
    if n ∈ stack then some (.inl n)
    else if n ∈ todo then some (.inr n)
    else scan_edges stack todo rest

/--
The loop body of `find_cycle` of `giles.py`.  The stack is kept with its
top at the head (Python's `stack[-1]`), so Python's
`stack[stack.index(node):]` — the slice from the repeated node up to the
top — is the reversed prefix of this list up to the repeated node.  An
empty stack pops the next `todo` entry (the outer `while` loop); a
neighbour on the stack closes a cycle; a neighbour in `todo` is pushed
and removed from `todo`; otherwise the top is popped.
-/
def find_cycle_go (edges : α → List α) : List α → List α → Option (List α)
  | todo, [] =>
    match todo with
    | [] => none
    | t :: ts => find_cycle_go edges ts [t]
  | todo, top :: rest =>
    match h : scan_edges (top :: rest) todo (edges top) with
    | some (.inl n) =>
      some (((top :: rest).take ((top :: rest).indexOf n + 1)).reverse)
    | some (.inr n) => find_cycle_go edges (todo.erase n) (n :: top :: rest)
    | none => find_cycle_go edges todo rest
termination_by todo stack => (todo.length, stack.length)
decreasing_by
  · exact Prod.Lex.left _ _ (by simp)
  · refine Prod.Lex.left _ _ ?_
    have hn : n ∈ todo := by
      generalize edges top = l at h
      induction l with
      | nil => simp [scan_edges] at h
      | cons a as ih =>
        rw [scan_edges] at h
        split at h
        · simp at h
        · split at h
          · rename_i ha
            simp only [Option.some.injEq, Sum.inr.injEq] at h
            exact h ▸ ha
          · exact ih h
    have h1 : 0 < todo.length := List.length_pos.mpr (List.ne_nil_of_mem hn)
    rw [List.length_erase_of_mem hn]
    omega
  · exact Prod.Lex.right _ (by simp)

/-- `find_cycle(nodes, edges)` of `giles.py`: `todo = set(nodes)`, then
the loop, starting with an empty stack. -/
def find_cycle (nodes : List α) (edges : α → List α) : Option (List α) :=
  find_cycle_go edges nodes.dedup []

/--
A directed cycle of the graph, as `find_cycle` returns one: a nonempty
node list whose consecutive elements are joined by edges and whose last
element has an edge back to the first (so the list starts at the
repeated node).
-/
def IsCycleList (edges : α → List α) : List α → Prop
  | [] => False
  | v :: rest => List.Chain' (fun x y => y ∈ edges x) (v :: rest) ∧ v ∈ edges (rest.getLastD v)

end Cycle

/-- The binary operators defined by the `Parser` methods of
`giles/expression.py` (without the regex operators, which are not
embedded). -/
def embeddedBinOps : List String :=
  ["+", "-", "*", "/", "%", "==", "!=", "<", "<=", ">", ">=", "&&", "||", ".",
    "like", "unlike", "and"]

/-- The accepted type tuples of an operator, as a plain list. -/
def binCombosL (op : String) : List (Ty × Ty) :=
  (binCombos op).getD []

/-- The accepted operand types of a unary operator, as a plain list. -/
def unCombosL (op : String) : List Ty :=
  (unCombos op).getD []

/-- The declared result type of a binary operator given its (accepted)
left operand type: the comparisons, `like`/`unlike` and the reified
`and` return booleans, everything else returns its operand type. -/
def binRet (op : String) (ta : Ty) : Ty :=
  if op ∈ (["==", "!=", "<", "<=", ">", ">=", "like", "unlike", "and"] : List String) then .bool
  else ta

/-- The deterministic (value-computing) binary operators: all embedded
operators except `and`, which reifies a runtime join instead of
computing a value. -/
def detBinOps : List String :=
  ["+", "-", "*", "/", "%", "==", "!=", "<", "<=", ">", ">=", "&&", "||", ".",
    "like", "unlike"]

/-- The unary operators of the parser. -/
def detUnOps : List String :=
  ["+", "-", "not"]

/-- The built-in cast functions of the parser. -/
def castFnNames : List String :=
  ["string_of_bool", "string_of_real", "string_of_int", "real_of_int", "int_of_real",
    "int_of_string"]

/--
A source expression all of whose leaves are literal constants and all of
whose operators and functions are deterministic: every operator is a
value-computing one (`and` reifies a join and is excluded; user-declared
external functions are opaque to the compiler and are not in the
language of built-ins embedded here).
-/
def SExp.foldable : SExp → Bool
  | .slit _ => true
  | .sthis _ _ => false
  | .sloc _ _ => false
  | .sbin op a b => decide (op ∈ detBinOps) && a.foldable && b.foldable
  | .sun op a => decide (op ∈ detUnOps) && a.foldable
  | .scast f a => decide (f ∈ castFnNames) && a.foldable
  | .sif c t e => c.foldable && t.foldable && e.foldable

/-! ### Expression typing (claims C1–C3) -/

set_option maxHeartbeats 1600000 in
theorem litBin_ok_ty (op : String) (a b v : Value)
    (hmem : (a.ty, b.ty) ∈ binCombosL op) (h : litBin op a b = .ok v) :
    v.ty = binRet op a.ty ∨ (op = "/" ∧ a.ty = .int ∧ v.ty = .real) := by
  unfold litBin at h
  split at h <;>
    first
      | (cases a <;> cases b <;> simp only [litDiv, litMod] at h <;> (try split at h) <;>
          simp_all [binRet, binCombosL, binCombos, Value.ty] <;> (try subst v) <;>
          simp [binRet, Value.ty] <;> done)
      | (cases a <;> cases b <;>
          simp_all [binRet, binCombosL, binCombos, Value.ty, pyLt, pyLe, litAdd, litSub,
            litMul, litAndB, litOrB, litConcat, litLike, litUnlike, Except.map] <;>
          (try subst v) <;> simp [binRet, Value.ty] <;> done)
      | (split at h <;> simp_all [binRet, Value.ty] <;> (try subst v) <;>
          simp [binRet, Value.ty] <;> done)
      | simp_all [binRet, Value.ty]

theorem except_map_ok {ε α β : Type} {f : α → β} {x : Except ε α} {r : β}
    (h : x.map f = .ok r) : ∃ v, x = .ok v ∧ r = f v := by
  cases x with
  | error e => simp [Except.map] at h
  | ok v => simp [Except.map] at h; exact ⟨v, rfl, h.symm⟩

set_option maxHeartbeats 3200000 in
theorem binBody_ok_type (p : Parser) (op : String) (x y r : Expr)
    (hop : op ∈ embeddedBinOps)
    (hmem : (x.type, y.type) ∈ binCombosL op)
    (h : binBody p op x y = .ok r) :
    r.type = binRet op x.type ∨ (op = "/" ∧ x.type = .int ∧ r.type = .real) := by
  obtain ⟨th, ar⟩ := p
  simp only [embeddedBinOps] at hop
  fin_cases hop <;>
    (simp only [binBody] at h
     cases x <;>
       first
         | (cases y <;>
             first
               | (obtain ⟨v, hl, rfl⟩ := except_map_ok h
                  have hty := litBin_ok_ty _ _ _ _ (by simpa [Expr.type] using hmem) hl
                  simpa [Expr.type] using hty)
               | (simp only [Except.ok.injEq] at h
                  subst h
                  simp [mkBinOp, Expr.type, binRet, cmpMirror, cmpNodeOp] <;> done)
               | (cases th <;> (try (simp only [Except.ok.injEq] at h; subst h)) <;> simp_all [Expr.type, binRet] <;> done))
         | (simp only [Except.ok.injEq] at h
            subst h
            simp [mkBinOp, Expr.type, binRet, cmpMirror, cmpNodeOp] <;> done)
         | (cases th <;> (try (simp only [Except.ok.injEq] at h; subst h)) <;> simp_all [Expr.type, binRet] <;> done))

theorem applyBinary_ok_type (p : Parser) (op : String) (x y r : Expr)
    (hop : op ∈ embeddedBinOps) (h : applyBinary p op x y = .ok r) :
    (x.type, y.type) ∈ binCombosL op ∧
      (r.type = binRet op x.type ∨ (op = "/" ∧ x.type = .int ∧ r.type = .real)) := by
  unfold applyBinary at h
  split at h
  · simp at h
  · rename_i combos hsome
    split at h
    · rename_i hmem
      have hm : (x.type, y.type) ∈ binCombosL op := by
        rw [binCombosL, hsome]; exact hmem
      exact ⟨hm, binBody_ok_type p op x y r hop hm h⟩
    · simp at h

theorem applyBinary_mismatch (p : Parser) (op : String) (x y : Expr)
    (hop : op ∈ embeddedBinOps) (hm : (x.type, y.type) ∉ binCombosL op) :
    applyBinary p op x y = .error (.invalidTypes (binOpErrName op) [x.type, y.type]) := by
  simp only [embeddedBinOps] at hop
  fin_cases hop <;>
    (simp only [applyBinary, binCombos]
     rw [if_neg (by simpa [binCombosL, binCombos] using hm)])

theorem litUn_ok_ty (op : String) (a v : Value) (h : litUn op a = .ok v) : v.ty = a.ty := by
  unfold litUn at h
  split at h <;>
    first
      | (cases a <;> simp_all [litPos, litNeg, litNot, Value.ty] <;> (try subst v) <;>
          simp [Value.ty] <;> done)
      | simp_all

theorem applyUnary_ok_type (op : String) (x r : Expr)
    (hop : op ∈ detUnOps) (h : applyUnary op x = .ok r) :
    x.type ∈ unCombosL op ∧ r.type = x.type := by
  unfold applyUnary at h
  split at h
  · simp at h
  · rename_i combos hsome
    split at h
    · rename_i hmem
      refine ⟨by rw [unCombosL, hsome]; exact hmem, ?_⟩
      simp only [detUnOps] at hop
      split at h
      · rename_i a
        obtain ⟨v, hl, rfl⟩ := except_map_ok h
        simpa [Expr.type] using litUn_ok_ty op a v hl
      · fin_cases hop <;>
          (simp only [unNode] at h
           simp only [Except.ok.injEq] at h
           subst h
           simp [mkUnOp, Expr.type])
    · simp at h

theorem applyUnary_mismatch (op : String) (x : Expr)
    (hop : op ∈ detUnOps) (hm : x.type ∉ unCombosL op) :
    applyUnary op x = .error (.invalidTypes (binOpErrName op) [x.type]) := by
  simp only [detUnOps] at hop
  fin_cases hop <;>
    (simp only [applyUnary, unCombos]
     rw [if_neg (by simpa [unCombosL, unCombos] using hm)])

theorem litCast_ok_ty (f : String) (sig : Ty × Ty) (a v : Value)
    (hsig : castSig f = some sig) (h : litCast f a = .ok v) : v.ty = sig.2 := by
  unfold litCast at h
  split at h
  · simp only [castSig, Option.some.injEq] at hsig; subst hsig
    cases a <;> simp_all [castStrOfBool, Value.ty] <;> (try subst v) <;> simp [Value.ty]
  · simp only [castSig, Option.some.injEq] at hsig; subst hsig
    cases a <;> simp_all [castStrOfReal, Value.ty] <;> (try subst v) <;> simp [Value.ty]
  · simp only [castSig, Option.some.injEq] at hsig; subst hsig
    cases a <;> simp_all [castStrOfInt, Value.ty] <;> (try subst v) <;> simp [Value.ty]
  · simp only [castSig, Option.some.injEq] at hsig; subst hsig
    cases a <;> simp_all [castRealOfInt, Value.ty] <;> (try subst v) <;> simp [Value.ty]
  · simp only [castSig, Option.some.injEq] at hsig; subst hsig
    cases a <;> simp_all [castIntOfReal, Value.ty] <;> (try subst v) <;> simp [Value.ty]
  · simp only [castSig, Option.some.injEq] at hsig; subst hsig
    cases a <;> simp only [castIntOfStr] at h <;>
      first
        | (simp only [pyIntOfString] at h
           repeat' split at h
           all_goals
             first
               | (subst h; rfl)
               | (simp only [Except.ok.injEq] at h; subst h; rfl)
               | exact absurd h (by simp))
        | simp_all
  · simp_all

theorem applyCast_ok_type (f : String) (x r : Expr) (sig : Ty × Ty)
    (hsig : castSig f = some sig) (h : applyCast f x = .ok r) :
    x.type = sig.1 ∧ r.type = sig.2 := by
  unfold applyCast at h
  split at h
  · rename_i heq
    rw [hsig] at heq
    exact absurd heq (by simp)
  · rename_i sig' heq
    rw [hsig] at heq
    injection heq with heq'
    subst heq'
    split at h
    · rename_i hty
      refine ⟨hty, ?_⟩
      split at h
      · rename_i a
        obtain ⟨v, hl, rfl⟩ := except_map_ok h
        simpa [Expr.type] using litCast_ok_ty f sig a v hsig hl
      · simp only [Except.ok.injEq] at h
        subst h
        simp [Expr.type]
    · simp at h

theorem applyCast_mismatch (f : String) (x : Expr) (sig : Ty × Ty)
    (hsig : castSig f = some sig) (hm : x.type ≠ sig.1) :
    applyCast f x = .error (.invalidTypes ("function '" ++ f ++ "'") [x.type]) := by
  unfold applyCast
  split
  · rename_i heq
    rw [hsig] at heq
    exact absurd heq (by simp)
  · rename_i sig' heq
    rw [hsig] at heq
    injection heq with heq'
    subst heq'
    rw [if_neg hm]

theorem applyIf_ok_type (c t e r : Expr)
    (hmem : (c.type, t.type, e.type) ∈ ifCombos) (h : applyIf c t e = .ok r) :
    r.type = t.type := by
  unfold applyIf at h
  rw [if_pos hmem] at h
  have hty : t.type = e.type := by
    simp only [ifCombos, List.mem_cons, List.mem_singleton, Prod.mk.injEq] at hmem
    rcases hmem with ⟨_, h2, h3⟩ | ⟨_, h2, h3⟩ | ⟨_, h2, h3⟩ | ⟨⟨_, h2, h3⟩ | h'⟩ <;>
      first
        | (rw [h2, h3])
        | simp_all
  split at h
  · rename_i b
    simp only [Except.ok.injEq] at h
    subst h
    split
    · rfl
    · exact hty.symm
  · simp only [Except.ok.injEq] at h
    subst h
    simp [Expr.type]

theorem applyIf_mismatch (c t e : Expr) (hm : (c.type, t.type, e.type) ∉ ifCombos) :
    applyIf c t e = .error (.invalidTypes ("function 'if'") [c.type, t.type, e.type]) := by
  unfold applyIf
  rw [if_neg hm]

/--
Claim C1, amended.  For every operator and built-in function
application the parser performs: when the actual operand types match an
accepted signature, a successfully returned value carries the declared
result type of the application — *except* `/` applied at (Int, Int),
whose constant-folding path returns a Real literal (Python 3 true
division); and when the actual operand types match no signature, the
application fails with an error naming the operator/function and the
actual operand types.  In particular `*` and `%` map (Int, Int) to Int
and `*`, `/` map (Real, Real) to Real, but `%` accepts only (Int, Int)
— `(Real, Real)` is rejected, contrary to the claim's table.
-/
theorem giles_c1_amended_typing :
    (∀ (p : Parser) (op : String) (x y r : Expr), op ∈ embeddedBinOps →
        applyBinary p op x y = .ok r →
        (x.type, y.type) ∈ binCombosL op ∧
          (r.type = binRet op x.type ∨ (op = "/" ∧ x.type = .int ∧ r.type = .real)))
    ∧ (∀ (p : Parser) (op : String) (x y : Expr), op ∈ embeddedBinOps →
        (x.type, y.type) ∉ binCombosL op →
        applyBinary p op x y = .error (.invalidTypes (binOpErrName op) [x.type, y.type]))
    ∧ (∀ (op : String) (x r : Expr), op ∈ detUnOps → applyUnary op x = .ok r →
        x.type ∈ unCombosL op ∧ r.type = x.type)
    ∧ (∀ (op : String) (x : Expr), op ∈ detUnOps → x.type ∉ unCombosL op →
        applyUnary op x = .error (.invalidTypes (binOpErrName op) [x.type]))
    ∧ (∀ (f : String) (x r : Expr) (sig : Ty × Ty), castSig f = some sig →
        applyCast f x = .ok r → x.type = sig.1 ∧ r.type = sig.2)
    ∧ (∀ (f : String) (x : Expr) (sig : Ty × Ty), castSig f = some sig → x.type ≠ sig.1 →
        applyCast f x = .error (.invalidTypes ("function '" ++ f ++ "'") [x.type]))
    ∧ (∀ (c t e r : Expr), (c.type, t.type, e.type) ∈ ifCombos → applyIf c t e = .ok r →
        r.type = t.type)
    ∧ (∀ (c t e : Expr), (c.type, t.type, e.type) ∉ ifCombos →
        applyIf c t e = .error (.invalidTypes ("function 'if'") [c.type, t.type, e.type])) :=
  ⟨applyBinary_ok_type, applyBinary_mismatch, applyUnary_ok_type, applyUnary_mismatch,
    fun f x r sig hs h => applyCast_ok_type f x r sig hs h,
    fun f x sig hs hm => applyCast_mismatch f x sig hs hm,
    applyIf_ok_type, applyIf_mismatch⟩

/-- Claim C1, witness: `2 * 3` folds to the Int literal `6`, of the
declared type Int. -/
theorem giles_c1_amended_witness :
    ((Expr.lit (.vInt 2)).type, (Expr.lit (.vInt 3)).type) ∈ binCombosL "*" ∧
      ((Expr.lit (.vInt 6)).type = binRet "*" (Expr.lit (.vInt 2)).type ∨
        ("*" = "/" ∧ (Expr.lit (.vInt 2)).type = .int ∧ (Expr.lit (.vInt 6)).type = .real)) :=
  giles_c1_amended_typing.1 (mkParser none false) "*" (.lit (.vInt 2)) (.lit (.vInt 3))
    (.lit (.vInt 6)) (by decide) rfl

/--
Claim C1, counterexample to the claim as stated: `%` applied at
(Real, Real) is rejected as a type error — the claim's table maps
`(Real, Real)` to Real for all of `*` `/` `%` — and `/` applied to the
Int literals 7 and 2 returns the Real literal 3.5, not an Int.
-/
theorem giles_c1_counterexample :
    applyBinary (mkParser none false) "%" (.lit (.vReal 1)) (.lit (.vReal 2)) =
        .error (.invalidTypes "operator '%'" [.real, .real]) ∧
      applyBinary (mkParser none false) "/" (.lit (.vInt 7)) (.lit (.vInt 2)) =
        .ok (.lit (.vReal (((7 : Int) : ℚ) / ((2 : Int) : ℚ)))) ∧
      (Expr.lit (.vReal (((7 : Int) : ℚ) / ((2 : Int) : ℚ)))).type = .real :=
  ⟨rfl, rfl, rfl⟩

/--
Claim C3.  The source guards `operator_join` with `if parser.this is
None: raise`, but `Parser.__init__` assigns `self.this = this if this
is not None else {}`, so the stored attribute is never `None` and the
guard never fires: evaluating `true and true` through a parser
constructed with `this = None` — the configuration used for every
expression outside a match context, such as a constant initialiser or a
rule's final `When` predicate — succeeds and returns a `JoinNode`
instead of raising.
-/
theorem giles_c3_join_outside_match :
    (mkParser none false).thisAttr = some [] ∧
      applyBinary (mkParser none false) "and" (.lit (.vBool true)) (.lit (.vBool true)) =
        .ok (.joinNode (.lit (.vBool true)) (.lit (.vBool true))) :=
  ⟨rfl, rfl⟩

theorem except_bind_ok {ε α β : Type} (a : α) (f : α → Except ε β) :
    (Except.ok a : Except ε α) >>= f = f a := rfl

theorem except_bind_err {ε α β : Type} (e : ε) (f : α → Except ε β) :
    (Except.error e : Except ε α) >>= f = Except.error e := rfl

set_option maxHeartbeats 1600000 in
theorem applyBinary_lit (p : Parser) (op : String) (hop : op ∈ detBinOps) (a b : Value) :
    applyBinary p op (.lit a) (.lit b) = (mathBinApp op a b).map Expr.lit := by
  simp only [detBinOps] at hop
  fin_cases hop <;>
    (simp only [applyBinary, mathBinApp, binCombos, Expr.type]
     split <;> simp [binBody, Except.map])

theorem applyUnary_lit (op : String) (hop : op ∈ detUnOps) (a : Value) :
    applyUnary op (.lit a) = (mathUnApp op a).map Expr.lit := by
  simp only [detUnOps] at hop
  fin_cases hop <;>
    (simp only [applyUnary, mathUnApp, unCombos, Expr.type]
     split <;> simp [Except.map])

theorem applyCast_lit (f : String) (hf : f ∈ castFnNames) (a : Value) :
    applyCast f (.lit a) = (mathCastApp f a).map Expr.lit := by
  simp only [castFnNames] at hf
  fin_cases hf <;>
    (simp only [applyCast, mathCastApp, castSig, Expr.type]
     split <;> simp [Except.map])

theorem applyIf_lit (vc vt ve : Value) :
    applyIf (.lit vc) (.lit vt) (.lit ve) = (mathIfApp vc vt ve).map Expr.lit := by
  simp only [applyIf, mathIfApp, Expr.type]
  split
  · rename_i hmem
    cases vc with
    | vBool b => cases b <;> simp [Except.map]
    | vInt n => simp_all [ifCombos, Value.ty]
    | vReal q => simp_all [ifCombos, Value.ty]
    | vStr s => simp_all [ifCombos, Value.ty]
  · simp [Except.map]

/--
Claim C2.  For every source expression all of whose leaves are literal
constants and all of whose operators and built-in functions are
deterministic (the value-computing operators; the reifying `and` and the
compile-time-opaque external functions are outside the hypothesis):
whenever the parser evaluates it successfully, the result is a bare
literal — no AST node is constructed — and that literal equals the
mathematical value of the expression.
-/
theorem giles_c2_constant_folding (p : Parser) (e : SExp) (r : Expr)
    (hf : e.foldable = true) (h : evalS p e = .ok r) :
    ∃ v, r = .lit v ∧ mathEval e = .ok v := by
  induction e generalizing r with
  | slit v =>
    simp only [evalS, Except.ok.injEq] at h
    exact ⟨v, h.symm, rfl⟩
  | sthis n t => simp [SExp.foldable] at hf
  | sloc n t => simp [SExp.foldable] at hf
  | sbin op a b iha ihb =>
    simp only [SExp.foldable, Bool.and_eq_true, decide_eq_true_eq] at hf
    obtain ⟨⟨hop, hfa⟩, hfb⟩ := hf
    simp only [evalS] at h
    cases hb : evalS p b with
    | error e1 => rw [hb, except_bind_err] at h; simp at h
    | ok yb =>
      rw [hb, except_bind_ok] at h
      cases ha : evalS p a with
      | error e1 => rw [ha, except_bind_err] at h; simp at h
      | ok xa =>
        rw [ha, except_bind_ok] at h
        obtain ⟨vb, rfl, hmb⟩ := ihb yb hfb hb
        obtain ⟨va, rfl, hma⟩ := iha xa hfa ha
        rw [applyBinary_lit p op hop va vb] at h
        obtain ⟨v, hv, rfl⟩ := except_map_ok h
        refine ⟨v, rfl, ?_⟩
        simp only [mathEval]
        rw [hmb, except_bind_ok, hma, except_bind_ok, hv]
  | sun op a iha =>
    simp only [SExp.foldable, Bool.and_eq_true, decide_eq_true_eq] at hf
    obtain ⟨hop, hfa⟩ := hf
    simp only [evalS] at h
    cases ha : evalS p a with
    | error e1 => rw [ha, except_bind_err] at h; simp at h
    | ok xa =>
      rw [ha, except_bind_ok] at h
      obtain ⟨va, rfl, hma⟩ := iha xa hfa ha
      rw [applyUnary_lit op hop va] at h
      obtain ⟨v, hv, rfl⟩ := except_map_ok h
      refine ⟨v, rfl, ?_⟩
      simp only [mathEval]
      rw [hma, except_bind_ok, hv]
  | scast f a iha =>
    simp only [SExp.foldable, Bool.and_eq_true, decide_eq_true_eq] at hf
    obtain ⟨hft, hfa⟩ := hf
    simp only [evalS] at h
    cases ha : evalS p a with
    | error e1 => rw [ha, except_bind_err] at h; simp at h
    | ok xa =>
      rw [ha, except_bind_ok] at h
      obtain ⟨va, rfl, hma⟩ := iha xa hfa ha
      rw [applyCast_lit f hft va] at h
      obtain ⟨v, hv, rfl⟩ := except_map_ok h
      refine ⟨v, rfl, ?_⟩
      simp only [mathEval]
      rw [hma, except_bind_ok, hv]
  | sif c t e ihc iht ihe =>
    simp only [SExp.foldable, Bool.and_eq_true] at hf
    obtain ⟨⟨hfc, hft⟩, hfe⟩ := hf
    simp only [evalS] at h
    cases he : evalS p e with
    | error e1 => rw [he, except_bind_err] at h; simp at h
    | ok ze =>
      rw [he, except_bind_ok] at h
      cases ht : evalS p t with
      | error e1 => rw [ht, except_bind_err] at h; simp at h
      | ok yt =>
        rw [ht, except_bind_ok] at h
        cases hc : evalS p c with
        | error e1 => rw [hc, except_bind_err] at h; simp at h
        | ok xc =>
          rw [hc, except_bind_ok] at h
          obtain ⟨ve, rfl, hme⟩ := ihe ze hfe he
          obtain ⟨vt, rfl, hmt⟩ := iht yt hft ht
          obtain ⟨vc, rfl, hmc⟩ := ihc xc hfc hc
          rw [applyIf_lit vc vt ve] at h
          obtain ⟨v, hv, rfl⟩ := except_map_ok h
          refine ⟨v, rfl, ?_⟩
          simp only [mathEval]
          rw [hme, except_bind_ok, hmt, except_bind_ok, hmc, except_bind_ok, hv]

/-- Claim C2, witness: `1 + 2 * 3` is foldable, and the parser's result
— the bare literal 7 — equals its mathematical value. -/
theorem giles_c2_witness :
    ∃ v, (Expr.lit (.vInt 7) : Expr) = .lit v ∧
      mathEval (.sbin "+" (.slit (.vInt 1)) (.sbin "*" (.slit (.vInt 2)) (.slit (.vInt 3)))) =
        .ok v :=
  giles_c2_constant_folding (mkParser none false)
    (.sbin "+" (.slit (.vInt 1)) (.sbin "*" (.slit (.vInt 2)) (.slit (.vInt 3))))
    (.lit (.vInt 7)) (by decide) rfl

/-! ### Validator, parameters, synthetic assignments, joins (C6, C8–C10) -/

/--
Claim C9.  The maximum-length gate of `List.__call__`
(`giles/validate.py`) compares with `<` instead of `>` — the source
reads `if self.max_length is not None and len(obj) < self.max_length:
raise` under the message `Expected a list of at most length %d`.  With
`max = 3` the validator therefore rejects a one-element list and
accepts a five-element one, inverting the documented bound; the member
validator is applied elementwise, in order, when the gates pass.
-/
theorem giles_c9_list_max_inverted :
    list_validate (fun _ x => .ok x : String → String → Except VErr String) none (some 3)
        ["a"] "/" =
      .error (.validation "Expected a list of at most length 3") ∧
      list_validate (fun _ x => .ok x : String → String → Except VErr String) none (some 3)
        ["a", "b", "c", "d", "e"] "/" = .ok ["a", "b", "c", "d", "e"] :=
  ⟨rfl, rfl⟩

/--
Claim C8.  When a parameter's name collides with an identically-named
fact, the `try` body raises before `parameters[name] = {}` ever runs;
the `except` handler then executes `del parameters[name]` on a missing
key, so compilation aborts with an uncaught `KeyError` instead of
counting one error and recovering (the handler would moreover have
deleted the pre-existing fact had it survived the `del`).
-/
theorem giles_c8_parameter_collision_keyerror :
    evaluate_parameters ⟨[("F", [("X", .int)])], [], 0⟩
        [("F", ⟨.vBool true, none, none, none⟩)] =
      .error (.keyError "F") :=
  rfl

/--
Claim C6.  The synthetic-assignment pass selects `prev_clause =
rule["matches"][j - 2]` with `j` the index into the chained iteration
over `matches[i+1:] + inverted_matches`.  For a three-match rule whose
first clause assigns `X` and whose third clause's `when` is
`This.F == Locals.X + 1` (so `i = 0`, `j = 1`), Python's negative
indexing makes `matches[-1]` — the *third* clause itself — the
"previous" clause: the synthetic assignment is attached to the clause
that *uses* the variable, not to the first clause, which introduced it.
-/
theorem giles_c6_wrong_prev_clause :
    synthetic_pass
        ⟨[("X", .int)],
          [⟨"A", none, [("X", .thisRef "P" .int)]⟩,
            ⟨"B", none, []⟩,
            ⟨"C",
              some (.binOp "=" "=" (.thisRef "F" .int)
                (.binOp "+" "+" (.localRef "X" .int) (.lit (.vInt 1)) .int) .bool),
              []⟩],
          []⟩ =
      .ok
        (⟨[("X", .int), ("synthetic_assignment_1", .int)],
          [⟨"A", none, [("X", .thisRef "P" .int)]⟩,
            ⟨"B", none, []⟩,
            ⟨"C",
              some (.binOp "=" "=" (.thisRef "F" .int)
                (.localRef "synthetic_assignment_1" .int) .bool),
              [("synthetic_assignment_1",
                .binOp "+" "+" (.localRef "X" .int) (.lit (.vInt 1)) .int)]⟩],
          []⟩,
        1) :=
  rfl

/--
Claim C10.  When no boolean binary predicate rooted on a `This`-field
reference survives the `include_constants` filter of `generate_join`'s
flattening, the function returns `None` — not an empty string — before
the index-demand blocks run, so no index demand is recorded for either
the frame prefix or the fact prefix.
-/
theorem giles_c10_empty_join (when : Option Expr) (fact : String)
    (framePre factPre : Option String) (includeConstants : Bool) (idx : Indexes String)
    (h : join_survivors when includeConstants = ([], [])) :
    generate_join when fact framePre factPre includeConstants idx = .ok (none, idx) := by
  unfold generate_join
  rw [h]
  rfl

/-- Claim C10, witness: a predicate whose left side is a local — not a
`This` reference — survives nothing, and `generate_join` returns `None`
leaving the index map untouched. -/
theorem giles_c10_witness :
    generate_join (some (.binOp "=" "=" (.localRef "L" .int) (.lit (.vInt 1)) .bool)) "f"
        (some "frame") (some "T") true [] = .ok (none, []) :=
  giles_c10_empty_join
    (some (.binOp "=" "=" (.localRef "L" .int) (.lit (.vInt 1)) .bool)) "f"
    (some "frame") (some "T") true [] rfl

/-! ### Joinable-predicate checks (claim C7) -/

theorem forM_check_nil :
    ([] : List (Option Expr)).forM check_match_when = .ok () := rfl

theorem forM_check_cons (w : Option Expr) (l : List (Option Expr)) :
    (w :: l).forM check_match_when =
      check_match_when w >>= fun _ => l.forM check_match_when := rfl

theorem analyze_rule_whens_eq (whens inverted : List (Option Expr)) :
    analyze_rule_whens whens inverted =
      whens.forM check_match_when >>= fun _ => inverted.forM check_match_when := rfl

theorem check_match_when_error (w : Option Expr) (r : RErr)
    (h : check_match_when w = .error r) :
    ∃ e, w = some e ∧ r = .notJoinable e ∧ joinable_shape e = false := by
  cases w with
  | none => simp [check_match_when] at h
  | some e =>
    simp only [check_match_when] at h
    split at h
    · simp at h
    · rename_i hs
      simp only [Except.error.injEq] at h
      exact ⟨e, rfl, h.symm, by simpa using hs⟩

theorem forM_check_error_shape (l : List (Option Expr)) (r : RErr)
    (h : l.forM check_match_when = .error r) :
    ∃ e, r = .notJoinable e ∧ joinable_shape e = false := by
  induction l with
  | nil => rw [forM_check_nil] at h; exact absurd h (by simp)
  | cons w rest ih =>
    rw [forM_check_cons] at h
    cases hw : check_match_when w with
    | error rw' =>
      rw [hw, except_bind_err] at h
      obtain ⟨e, _, hr, hs⟩ := check_match_when_error w rw' hw
      simp only [Except.error.injEq] at h
      exact ⟨e, by rw [← h, hr], hs⟩
    | ok u =>
      cases u
      rw [hw, except_bind_ok] at h
      exact ih h

theorem forM_check_ok (l : List (Option Expr)) (h : l.forM check_match_when = .ok ()) :
    ∀ w ∈ l, check_match_when w = .ok () := by
  induction l with
  | nil => simp
  | cons w rest ih =>
    rw [forM_check_cons] at h
    cases hw : check_match_when w with
    | error r => rw [hw, except_bind_err] at h; simp at h
    | ok u =>
      cases u
      rw [hw, except_bind_ok] at h
      intro x hx
      rcases List.mem_cons.mp hx with rfl | hmem
      · exact hw
      · exact ih h x hmem

theorem forM_check_has_error (l : List (Option Expr))
    (hbad : ∃ w ∈ l, ∃ e, w = some e ∧ joinable_shape e = false) :
    ∃ e, l.forM check_match_when = .error (.notJoinable e) ∧ joinable_shape e = false := by
  induction l with
  | nil => simp at hbad
  | cons w rest ih =>
    rcases hbad with ⟨w', hw', e, hsome, hshape⟩
    rw [forM_check_cons]
    cases hw : check_match_when w with
    | error r =>
      obtain ⟨e', _, hr, hs'⟩ := check_match_when_error w r hw
      rw [except_bind_err, hr]
      exact ⟨e', rfl, hs'⟩
    | ok u =>
      cases u
      rw [except_bind_ok]
      apply ih
      rcases List.mem_cons.mp hw' with rfl | hmem
      · exfalso
        subst hsome
        simp [check_match_when, hshape] at hw
      · exact ⟨w', hmem, e, hsome, hshape⟩

/--
Claim C7.  During rule analysis, every match — positive or inverted —
whose `when` expression is neither a `Join` node nor a binary-operator
node whose left argument is a `This`-field reference causes the rule's
analysis to raise the "not a joinable predicate" error, and the
enclosing rule is dropped from the rule map with the error counted.
-/
theorem giles_c7_not_joinable (whens inverted : List (Option Expr))
    (hbad : ∃ w ∈ whens ++ inverted, ∃ e, w = some e ∧ joinable_shape e = false) :
    (∃ e, analyze_rule_whens whens inverted = .error (.notJoinable e) ∧
        joinable_shape e = false)
    ∧ ∀ (name : String) (acc : List String × Nat),
        load_rules_step acc (name, (whens, inverted)) = (acc.1, acc.2 + 1) := by
  have main : ∃ e, analyze_rule_whens whens inverted = .error (.notJoinable e) ∧
      joinable_shape e = false := by
    rw [analyze_rule_whens_eq]
    cases hw : whens.forM check_match_when with
    | error r =>
      obtain ⟨e, hr, hs⟩ := forM_check_error_shape whens r hw
      refine ⟨e, ?_, hs⟩
      rw [except_bind_err, hr]
    | ok u =>
      cases u
      have hbad' : ∃ w ∈ inverted, ∃ e, w = some e ∧ joinable_shape e = false := by
        rcases hbad with ⟨w', hw', e, hsome, hshape⟩
        rcases List.mem_append.mp hw' with hmem | hmem
        · exfalso
          have hok := forM_check_ok whens hw w' hmem
          subst hsome
          simp [check_match_when, hshape] at hok
        · exact ⟨w', hmem, e, hsome, hshape⟩
      obtain ⟨e, herr, hs⟩ := forM_check_has_error inverted hbad'
      refine ⟨e, ?_, hs⟩
      rw [except_bind_ok, herr]
  refine ⟨main, ?_⟩
  intro name acc
  obtain ⟨e, herr, _⟩ := main
  simp [load_rules_step, herr]

/-- Claim C7, witness: a rule whose only match has the bare literal
`true` as its `when` — neither a `Join` nor a `This`-rooted binary op —
is dropped and the error counted. -/
theorem giles_c7_witness :
    load_rules_step ([], 0) ("R", ([some (.lit (.vBool true))], [])) = ([], 1) :=
  (giles_c7_not_joinable [some (.lit (.vBool true))] []
    ⟨some (.lit (.vBool true)), by simp, .lit (.vBool true), rfl, rfl⟩).2 "R" ([], 0)

/-! ### The index prefix tree and its depth-first emission (claim C5) -/

section C5Proofs

variable {α : Type} [DecidableEq α]

theorem alGet_alSet {κ β : Type} [DecidableEq κ] (l : List (κ × β)) (k f : κ) (v : β) :
    alGet (alSet l k v) f = if f = k then some v else alGet l f := by
  induction l with
  | nil =>
    by_cases h : f = k
    · subst h; simp [alSet, alGet]
    · have h' : ¬ k = f := fun h'' => h h''.symm
      simp [alSet, alGet, h, h']
  | cons e rest ih =>
    obtain ⟨g, w⟩ := e
    by_cases hg : g = k
    · subst hg
      by_cases hf : f = g
      · subst hf; simp [alSet, alGet]
      · have hf' : ¬ g = f := fun h'' => hf h''.symm
        simp [alSet, alGet, hf, hf']
    · by_cases hf : g = f
      · subst hf
        simp [alSet, alGet, hg]
      · simp [alSet, alGet, hg, hf, ih]

theorem alGet_mem {κ β : Type} [DecidableEq κ] (l : List (κ × β)) (k : κ) (v : β)
    (h : alGet l k = some v) : (k, v) ∈ l := by
  induction l with
  | nil => simp [alGet] at h
  | cons e rest ih =>
    obtain ⟨g, w⟩ := e
    by_cases hg : g = k
    · subst hg
      rw [alGet, if_pos rfl] at h
      injection h with h
      subst h
      exact List.mem_cons_self _ _
    · simp only [alGet, if_neg hg] at h
      exact List.mem_cons_of_mem _ (ih h)

theorem mem_alSet {κ β : Type} [DecidableEq κ] (l : List (κ × β)) (k : κ) (v : β) (c : κ × β)
    (h : c ∈ alSet l k v) : c = (k, v) ∨ c ∈ l := by
  induction l with
  | nil =>
    simp only [alSet] at h
    exact .inl (List.mem_singleton.mp h)
  | cons e rest ih =>
    obtain ⟨g, w⟩ := e
    by_cases hg : g = k
    · subst hg
      rw [alSet, if_pos rfl] at h
      rcases List.mem_cons.mp h with h | h
      · exact .inl h
      · exact .inr (List.mem_cons_of_mem _ h)
    · simp only [alSet, if_neg hg] at h
      rcases List.mem_cons.mp h with h | h
      · exact .inr (by simp [h])
      · rcases ih h with h' | h'
        · exact .inl h'
        · exact .inr (List.mem_cons_of_mem _ h')

theorem alSet_map_fst {κ β : Type} [DecidableEq κ] (l : List (κ × β)) (k : κ) (v : β) :
    (alSet l k v).map Prod.fst =
      if k ∈ l.map Prod.fst then l.map Prod.fst else l.map Prod.fst ++ [k] := by
  induction l with
  | nil => simp [alSet]
  | cons e rest ih =>
    obtain ⟨g, w⟩ := e
    by_cases hg : g = k
    · subst hg
      simp [alSet]
    · have hkg : ¬ k = g := fun h => hg h.symm
      simp only [alSet, if_neg hg, List.map_cons, ih, List.mem_cons, hkg, false_or]
      by_cases hk : k ∈ rest.map Prod.fst
      · simp [hk]
      · simp [hk]

theorem alSet_ne_nil {κ β : Type} [DecidableEq κ] (l : List (κ × β)) (k : κ) (v : β) :
    alSet l k v ≠ [] := by
  cases l with
  | nil => simp [alSet]
  | cons e rest =>
    obtain ⟨g, w⟩ := e
    by_cases hg : g = k <;> simp [alSet, hg]

theorem treeWf_mk (cs : List (α × ITree α)) :
    treeWf (.mk cs) = true ↔ (cs.map Prod.fst).Nodup ∧ ∀ c ∈ cs, treeWf c.2 = true := by
  rw [treeWf]
  simp only [Bool.and_eq_true, decide_eq_true_eq, List.all_eq_true]
  constructor
  · rintro ⟨h1, h2⟩
    exact ⟨h1, fun c hc => h2 ⟨c, hc⟩ (List.mem_attach _ _)⟩
  · rintro ⟨h1, h2⟩
    exact ⟨h1, fun c _ => h2 c.1 c.2⟩

theorem treeWf_nil : treeWf (.mk ([] : List (α × ITree α))) = true := by
  rw [treeWf_mk]; simp

theorem subtreeAt_cons_some (t : ITree α) (f : α) (rest : List α) (c : ITree α)
    (h : alGet t.children f = some c) : subtreeAt t (f :: rest) = subtreeAt c rest := by
  rw [subtreeAt, h]

theorem subtreeAt_cons_none (t : ITree α) (f : α) (rest : List α)
    (h : alGet t.children f = none) : subtreeAt t (f :: rest) = none := by
  rw [subtreeAt, h]

theorem treeWf_insertPath (t : ITree α) (d : List α) (h : treeWf t = true) :
    treeWf (insertPath t d) = true := by
  induction d generalizing t with
  | nil => simpa [insertPath] using h
  | cons f rest ih =>
    obtain ⟨cs⟩ := t
    rw [treeWf_mk] at h
    obtain ⟨hnd, hch⟩ := h
    rw [insertPath, treeWf_mk]
    simp only [ITree.children]
    constructor
    · rw [alSet_map_fst]
      split
      · exact hnd
      · rename_i hf
        refine List.Nodup.append hnd (List.nodup_singleton f) ?_
        intro a ha hb
        rw [List.mem_singleton] at hb
        subst hb
        exact hf ha
    · intro c hc
      rcases mem_alSet _ _ _ _ hc with h' | h'
      · subst h'
        apply ih
        cases hg : alGet cs f with
        | none => simpa [hg] using treeWf_nil
        | some c0 =>
          simp only [ITree.children, hg, Option.getD_some]
          exact hch _ (alGet_mem _ _ _ hg)
      · exact hch c h'

theorem insertPath_eq_nil_iff (t : ITree α) (d : List α) :
    insertPath t d = .mk [] ↔ d = [] ∧ t = .mk [] := by
  cases d with
  | nil => simp [insertPath]
  | cons f rest =>
    rw [insertPath]
    constructor
    · intro h
      exact absurd (congrArg ITree.children h)
        (by simpa [ITree.children] using alSet_ne_nil _ _ _)
    · rintro ⟨h, -⟩; cases h

theorem subtreeAt_insertPath (q : List α) (t : ITree α) (d : List α) :
    subtreeAt (insertPath t d) q =
      if q <+: d then some (insertPath ((subtreeAt t q).getD (.mk [])) (d.drop q.length))
      else subtreeAt t q := by
  induction q generalizing t d with
  | nil =>
    rw [if_pos ( List.nil_prefix)]
    simp [subtreeAt]
  | cons f q' ih =>
    cases d with
    | nil =>
      rw [if_neg (fun h => by simpa using h.length_le), insertPath]
    | cons g d' =>
      have hch : (insertPath t (g :: d')).children =
          alSet t.children g (insertPath ((alGet t.children g).getD (.mk [])) d') := by
        cases t; rfl
      by_cases hfg : f = g
      · subst hfg
        have hget : alGet (insertPath t (f :: d')).children f =
            some (insertPath ((alGet t.children f).getD (.mk [])) d') := by
          rw [hch, alGet_alSet, if_pos rfl]
        rw [subtreeAt_cons_some _ _ _ _ hget, ih]
        by_cases hq : q' <+: d'
        · rw [if_pos hq, if_pos (List.cons_prefix_cons.mpr ⟨rfl, hq⟩)]
          have hlen : (f :: d').drop (f :: q').length = d'.drop q'.length := by simp
          rw [hlen]
          congr 2
          cases hg0 : alGet t.children f with
          | some c =>
            rw [subtreeAt_cons_some _ _ _ _ hg0]
            simp [hg0]
          | none =>
            rw [subtreeAt_cons_none _ _ _ hg0]
            simp only [hg0, Option.getD_none]
            cases q' with
            | nil => simp [subtreeAt]
            | cons a b =>
              rw [subtreeAt_cons_none (ITree.mk []) a b rfl]
              rfl
        · rw [if_neg hq, if_neg (fun h => hq (List.cons_prefix_cons.mp h).2)]
          cases hg0 : alGet t.children f with
          | some c =>
            rw [subtreeAt_cons_some _ _ _ _ hg0]
            simp [hg0]
          | none =>
            rw [subtreeAt_cons_none _ _ _ hg0]
            simp only [hg0, Option.getD_none]
            cases q' with
            | nil => exact absurd ( List.nil_prefix) hq
            | cons a b => rw [subtreeAt_cons_none (ITree.mk []) a b rfl]
      · rw [if_neg (fun h => hfg (List.cons_prefix_cons.mp h).1)]
        have hget : alGet (insertPath t (g :: d')).children f = alGet t.children f := by
          rw [hch, alGet_alSet, if_neg hfg]
        cases hg0 : alGet t.children f with
        | some c =>
          rw [subtreeAt_cons_some _ _ _ _ (hget.trans hg0), subtreeAt_cons_some _ _ _ _ hg0]
        | none =>
          rw [subtreeAt_cons_none _ _ _ (hget.trans hg0), subtreeAt_cons_none _ _ _ hg0]

theorem nodeIn_some (t : ITree α) (q : List α) :
    nodeIn (some t) q ↔ (subtreeAt t q).isSome := by
  simp [nodeIn]

theorem leafIn_some (t : ITree α) (q : List α) :
    leafIn (some t) q ↔ subtreeAt t q = some (.mk []) := by
  simp [leafIn]

theorem nodeIn_insertDemand (o : Option (ITree α)) (d q : List α) :
    nodeIn (insertDemand o d) q ↔ nodeIn o q ∨ (d ≠ [] ∧ q <+: d) := by
  rw [insertDemand]
  by_cases hd : d = []
  · rw [if_pos hd]
    simp [hd]
  · rw [if_neg hd]
    rw [nodeIn_some, subtreeAt_insertPath]
    by_cases hq : q <+: d
    · rw [if_pos hq]
      simp [hq, hd]
    · rw [if_neg hq]
      cases o with
      | none =>
        simp only [Option.getD_none]
        cases q with
        | nil => exact absurd ( List.nil_prefix) hq
        | cons a b =>
          rw [subtreeAt_cons_none (ITree.mk []) a b rfl]
          simp [nodeIn, hq]
      | some t => simp [nodeIn, hq]

theorem leafIn_insertDemand (o : Option (ITree α)) (d q : List α) :
    leafIn (insertDemand o d) q ↔
      (q = d ∧ d ≠ [] ∧ (leafIn o q ∨ ¬ nodeIn o q)) ∨
      (¬ (q <+: d ∧ q ≠ d) ∧ leafIn o q) := by
  rw [insertDemand]
  by_cases hd : d = []
  · subst hd
    rw [if_pos rfl]
    constructor
    · intro h
      refine .inr ⟨?_, h⟩
      rintro ⟨hp, hne⟩
      exact hne ( List.prefix_nil.mp hp)
    · rintro (⟨-, hne, -⟩ | ⟨-, h⟩)
      · exact absurd rfl hne
      · exact h
  · rw [if_neg hd, leafIn_some, subtreeAt_insertPath]
    by_cases hq : q <+: d
    · rw [if_pos hq]
      obtain ⟨r, rfl⟩ := hq
      rw [Option.some.injEq, insertPath_eq_nil_iff, List.drop_left]
      have hqd : q = q ++ r ↔ r = [] := by
        constructor
        · intro h
          have := congrArg List.length h
          simp at this
          exact this
        · rintro rfl; simp
      cases o with
      | none =>
        simp only [Option.getD_none]
        constructor
        · rintro ⟨hr, -⟩
          exact .inl ⟨hqd.mpr hr, hd, .inr (by simp [nodeIn])⟩
        · rintro (⟨he, -, -⟩ | ⟨hne, hleaf⟩)
          · refine ⟨hqd.mp he, ?_⟩
            cases q with
            | nil => rfl
            | cons a b => rw [subtreeAt_cons_none (ITree.mk []) a b rfl]; rfl
          · exact absurd hleaf (by simp [leafIn])
      | some t =>
        rw [Option.getD_some]
        cases hs : subtreeAt t q with
        | none =>
          simp only [Option.getD_none]
          constructor
          · rintro ⟨hr, -⟩
            exact .inl ⟨hqd.mpr hr, hd, .inr (by simp [nodeIn, hs])⟩
          · rintro (⟨he, -, -⟩ | ⟨hne, hleaf⟩)
            · exact ⟨hqd.mp he, by trivial⟩
            · rw [leafIn_some] at hleaf
              exact absurd (hs.symm.trans hleaf) (by simp)
        | some s =>
          rw [Option.getD_some]
          constructor
          · rintro ⟨hr, hsmk⟩
            exact .inl ⟨hqd.mpr hr, hd, .inl (by rw [leafIn_some, hs, hsmk])⟩
          · rintro (⟨he, -, hlo⟩ | ⟨hne, hleaf⟩)
            · refine ⟨hqd.mp he, ?_⟩
              rcases hlo with hleaf | hnode
              · rw [leafIn_some, hs] at hleaf
                injection hleaf
              · exact absurd ⟨t, rfl, by simp [hs]⟩ hnode
            · have he : q = q ++ r := by
                by_contra hne2
                exact hne ⟨⟨r, rfl⟩, hne2⟩
              rw [leafIn_some, hs] at hleaf
              injection hleaf with hleaf
              exact ⟨hqd.mp he, hleaf⟩
    · rw [if_neg hq]
      have hnqd : ¬ q = d := fun h => hq (h ▸ List.prefix_refl q)
      cases o with
      | none =>
        simp only [Option.getD_none]
        constructor
        · intro h
          cases q with
          | nil => exact absurd ( List.nil_prefix) hq
          | cons a b =>
            rw [subtreeAt_cons_none (ITree.mk []) a b rfl] at h
            cases h
        · rintro (⟨he, -, -⟩ | ⟨-, hleaf⟩)
          · exact absurd he hnqd
          · exact absurd hleaf (by simp [leafIn])
      | some t =>
        rw [Option.getD_some, ← leafIn_some]
        constructor
        · intro h
          exact .inr ⟨fun hc => hq hc.1, h⟩
        · rintro (⟨he, -, -⟩ | ⟨-, h⟩)
          · exact absurd he hnqd
          · exact h

theorem nodeIn_foldl (ds : List (List α)) (q : List α) :
    nodeIn (ds.foldl insertDemand none) q ↔ ∃ d ∈ ds, d ≠ [] ∧ q <+: d := by
  induction ds using List.reverseRecOn with
  | nil => simp [nodeIn]
  | append_singleton l a ih =>
    rw [List.foldl_append]
    simp only [List.foldl_cons, List.foldl_nil]
    rw [nodeIn_insertDemand, ih]
    constructor
    · rintro (⟨d, hd, hne, hp⟩ | ⟨hne, hp⟩)
      · exact ⟨d, by simp [hd], hne, hp⟩
      · exact ⟨a, by simp, hne, hp⟩
    · rintro ⟨d, hd, hne, hp⟩
      rcases List.mem_append.mp hd with h | h
      · exact .inl ⟨d, h, hne, hp⟩
      · rw [List.mem_singleton] at h
        subst h
        exact .inr ⟨hne, hp⟩

theorem leafIn_foldl (ds : List (List α)) (q : List α) :
    leafIn (ds.foldl insertDemand none) q ↔
      (q ∈ ds ∧ q ≠ []) ∧ ∀ d ∈ ds, q <+: d → d = q := by
  induction ds using List.reverseRecOn with
  | nil => simp [leafIn]
  | append_singleton l a ih =>
    rw [List.foldl_append]
    simp only [List.foldl_cons, List.foldl_nil]
    rw [leafIn_insertDemand, ih, nodeIn_foldl]
    constructor
    · rintro (⟨rfl, hne, hlast⟩ | ⟨hnp, ⟨hmem, hne⟩, hmax⟩)
      · refine ⟨⟨by simp, hne⟩, ?_⟩
        intro d hd hp
        rcases List.mem_append.mp hd with h | h
        · rcases hlast with ⟨⟨hql, -⟩, hqmax⟩ | hnn
          · exact hqmax d h hp
          · exfalso
            apply hnn
            refine ⟨d, h, ?_, hp⟩
            intro hdnil
            subst hdnil
            exact hne ( List.prefix_nil.mp hp)
        · rw [List.mem_singleton] at h
          exact h
      · refine ⟨⟨by simp [hmem], hne⟩, ?_⟩
        intro d hd hp
        rcases List.mem_append.mp hd with h | h
        · exact hmax d h hp
        · rw [List.mem_singleton] at h
          subst h
          by_contra hne2
          exact hnp ⟨hp, fun h' => hne2 h'.symm⟩
    · rintro ⟨⟨hmem, hne⟩, hmax⟩
      rcases List.mem_append.mp hmem with h | h
      · refine .inr ⟨?_, ⟨h, hne⟩, fun d hd hp => hmax d (by simp [hd]) hp⟩
        rintro ⟨hpa, hqa⟩
        exact hqa ((hmax a (by simp) hpa).symm)
      · rw [List.mem_singleton] at h
        subst h
        refine .inl ⟨rfl, hne, ?_⟩
        by_cases hn : ∃ d ∈ l, d ≠ [] ∧ q <+: d
        · obtain ⟨d, hd, hdne, hp⟩ := hn
          have hdq : d = q := hmax d (by simp [hd]) hp
          subst hdq
          exact .inl ⟨⟨hd, hne⟩, fun d' hd' hp' => hmax d' (by simp [hd']) hp'⟩
        · exact .inr hn

theorem treeWf_foldl (ds : List (List α)) :
    ∀ t, ds.foldl insertDemand none = some t → treeWf t = true := by
  suffices h : ∀ (o : Option (ITree α)), (∀ t, o = some t → treeWf t = true) →
      ∀ t, ds.foldl insertDemand o = some t → treeWf t = true by
    exact h none (by simp)
  induction ds with
  | nil =>
    intro o ho t ht
    exact ho t ht
  | cons d rest ih =>
    intro o ho t ht
    rw [List.foldl_cons] at ht
    refine ih (insertDemand o d) ?_ t ht
    intro t' ht'
    rw [insertDemand] at ht'
    split at ht'
    · exact ho t' ht'
    · injection ht' with ht'
      subst ht'
      apply treeWf_insertPath
      cases o with
      | none => exact treeWf_nil
      | some t0 => simpa using ho t0 rfl

theorem alGet_build_demands (tbl : String) (ds : List (List α)) :
    alGet (build_demands tbl ds) (pyLower tbl) = ds.foldl insertDemand none := by
  suffices h : ∀ idx : Indexes α,
      alGet (ds.foldl (fun idx d => add_index idx tbl d) idx) (pyLower tbl) =
        ds.foldl insertDemand (alGet idx (pyLower tbl)) by
    simpa [build_demands, alGet] using h []
  induction ds with
  | nil => intro idx; rfl
  | cons d rest ih =>
    intro idx
    rw [List.foldl_cons, List.foldl_cons, ih]
    congr 1
    simp only [add_index]
    by_cases hd : d = []
    · simp [hd, insertDemand]
    · rw [if_neg hd, insertDemand, if_neg hd, alGet_alSet, if_pos rfl]

mutual

theorem mem_dft_paths_shape (t : ITree α) (acc p : List α) (h : p ∈ dft_paths t acc) :
    ∃ q, p = acc ++ q := by
  obtain ⟨cs⟩ := t
  cases cs with
  | nil =>
    simp only [dft_paths, List.mem_singleton] at h
    exact ⟨[], by simp [h]⟩
  | cons c cs' =>
    simp only [dft_paths] at h
    obtain ⟨k, q, -, hp⟩ := mem_dft_children_shape (c :: cs') acc p h
    exact ⟨k :: q, hp⟩

theorem mem_dft_children_shape (cs : List (α × ITree α)) (acc p : List α)
    (h : p ∈ dft_children cs acc) :
    ∃ k q, k ∈ cs.map Prod.fst ∧ p = acc ++ k :: q := by
  cases cs with
  | nil => simp [dft_children] at h
  | cons c cs' =>
    obtain ⟨k0, t0⟩ := c
    simp only [dft_children, List.mem_append] at h
    rcases h with h | h
    · obtain ⟨q, hq⟩ := mem_dft_paths_shape t0 (acc ++ [k0]) p h
      exact ⟨k0, q, by simp, by simp [hq]⟩
    · obtain ⟨k, q, hk, hp⟩ := mem_dft_children_shape cs' acc p h
      exact ⟨k, q, by simp [hk], hp⟩

end

mutual

theorem mem_dft_paths_iff (t : ITree α) (acc p : List α) (hwf : treeWf t = true) :
    p ∈ dft_paths t acc ↔ ∃ q, p = acc ++ q ∧ subtreeAt t q = some (.mk []) := by
  obtain ⟨cs⟩ := t
  cases cs with
  | nil =>
    simp only [dft_paths, List.mem_singleton]
    constructor
    · rintro rfl
      exact ⟨[], by simp, rfl⟩
    · rintro ⟨q, rfl, hq⟩
      cases q with
      | nil => simp
      | cons a b =>
        rw [subtreeAt_cons_none (ITree.mk []) a b rfl] at hq
        exact absurd hq (by simp)
  | cons c cs' =>
    rw [treeWf_mk] at hwf
    obtain ⟨hnd, hch⟩ := hwf
    simp only [dft_paths]
    rw [mem_dft_children_iff (c :: cs') acc p hnd hch]
    constructor
    · rintro ⟨f, r, c0, hget, rfl, hsub⟩
      refine ⟨f :: r, rfl, ?_⟩
      rw [subtreeAt_cons_some (ITree.mk (c :: cs')) f r c0 hget]
      exact hsub
    · rintro ⟨q, rfl, hsub⟩
      cases q with
      | nil => simp [subtreeAt] at hsub
      | cons f r =>
        cases hget : alGet (ITree.children (ITree.mk (c :: cs'))) f with
        | none =>
          rw [subtreeAt_cons_none _ _ _ hget] at hsub
          exact absurd hsub (by simp)
        | some c0 =>
          rw [subtreeAt_cons_some _ _ _ _ hget] at hsub
          exact ⟨f, r, c0, hget, rfl, hsub⟩

theorem mem_dft_children_iff (cs : List (α × ITree α)) (acc p : List α)
    (hnd : (cs.map Prod.fst).Nodup) (hch : ∀ c ∈ cs, treeWf c.2 = true) :
    p ∈ dft_children cs acc ↔
      ∃ f r c0, alGet cs f = some c0 ∧ p = acc ++ f :: r ∧
        subtreeAt c0 r = some (.mk []) := by
  cases cs with
  | nil =>
    simp only [dft_children]
    simp [alGet]
  | cons c cs' =>
    obtain ⟨k0, t0⟩ := c
    have hnd' : (cs'.map Prod.fst).Nodup := (List.nodup_cons.mp (by simpa using hnd)).2
    have hk0 : k0 ∉ cs'.map Prod.fst := (List.nodup_cons.mp (by simpa using hnd)).1
    simp only [dft_children, List.mem_append]
    rw [mem_dft_paths_iff t0 (acc ++ [k0]) p (hch (k0, t0) (by simp)),
        mem_dft_children_iff cs' acc p hnd' (fun c hc => hch c (by simp [hc]))]
    constructor
    · rintro (⟨q, rfl, hsub⟩ | ⟨f, r, c0, hget, rfl, hsub⟩)
      · exact ⟨k0, q, t0, by simp [alGet], by simp, hsub⟩
      · have hf : ¬ k0 = f := by
          intro he
          subst he
          exact hk0 (by simpa using List.mem_map_of_mem Prod.fst (alGet_mem cs' k0 c0 hget))
        refine ⟨f, r, c0, ?_, rfl, hsub⟩
        rw [alGet, if_neg hf]
        exact hget
    · rintro ⟨f, r, c0, hget, rfl, hsub⟩
      by_cases hf : k0 = f
      · subst hf
        rw [alGet, if_pos rfl] at hget
        injection hget with hget
        subst hget
        exact .inl ⟨r, by simp, hsub⟩
      · rw [alGet, if_neg hf] at hget
        exact .inr ⟨f, r, c0, hget, rfl, hsub⟩

end

mutual

theorem nodup_dft_paths (t : ITree α) (acc : List α) (hwf : treeWf t = true) :
    (dft_paths t acc).Nodup := by
  obtain ⟨cs⟩ := t
  cases cs with
  | nil => simp [dft_paths]
  | cons c cs' =>
    rw [treeWf_mk] at hwf
    simp only [dft_paths]
    exact nodup_dft_children (c :: cs') acc hwf.1 hwf.2

theorem nodup_dft_children (cs : List (α × ITree α)) (acc : List α)
    (hnd : (cs.map Prod.fst).Nodup) (hch : ∀ c ∈ cs, treeWf c.2 = true) :
    (dft_children cs acc).Nodup := by
  cases cs with
  | nil => simp [dft_children]
  | cons c cs' =>
    obtain ⟨k0, t0⟩ := c
    have hnd' : (cs'.map Prod.fst).Nodup := (List.nodup_cons.mp (by simpa using hnd)).2
    have hk0 : k0 ∉ cs'.map Prod.fst := (List.nodup_cons.mp (by simpa using hnd)).1
    simp only [dft_children]
    refine List.Nodup.append (nodup_dft_paths t0 (acc ++ [k0]) (hch (k0, t0) (by simp)))
      (nodup_dft_children cs' acc hnd' (fun c hc => hch c (by simp [hc]))) ?_
    intro x hx1 hx2
    obtain ⟨q, hq⟩ := mem_dft_paths_shape t0 (acc ++ [k0]) x hx1
    obtain ⟨k, r, hk, hr⟩ := mem_dft_children_shape cs' acc x hx2
    rw [hq] at hr
    have h2 : acc ++ (k0 :: q) = acc ++ (k :: r) := by
      simpa [ List.append_assoc] using hr
    have h3 := congrArg (fun l => List.drop acc.length l) h2
    simp only [ List.drop_left] at h3
    injection h3 with h4 h5
    subst h4
    exact hk0 hk

end

theorem emitted_leaf_char (tbl : String) (ds : List (List α)) (p : List α) :
    p ∈ emitted_leaf_paths (build_demands tbl ds) (pyLower tbl) ↔
      (p ∈ ds ∧ p ≠ []) ∧ ∀ d ∈ ds, p <+: d → d = p := by
  rw [← leafIn_foldl, ← alGet_build_demands]
  unfold emitted_leaf_paths
  cases ho : alGet (build_demands tbl ds) (pyLower tbl) with
  | none => simp [leafIn]
  | some t =>
    have hwf : treeWf t = true :=
      treeWf_foldl ds t (by rw [← alGet_build_demands]; exact ho)
    rw [leafIn_some]
    simp only [mem_dft_paths_iff t [] p hwf, List.nil_append]
    constructor
    · rintro ⟨q, rfl, hq⟩
      exact hq
    · intro h
      exact ⟨p, rfl, h⟩

theorem emitted_nodup (tbl : String) (ds : List (List α)) :
    (emitted_leaf_paths (build_demands tbl ds) (pyLower tbl)).Nodup := by
  unfold emitted_leaf_paths
  cases ho : alGet (build_demands tbl ds) (pyLower tbl) with
  | none => simp
  | some t =>
    have hwf : treeWf t = true :=
      treeWf_foldl ds t (by rw [← alGet_build_demands]; exact ho)
    simpa using nodup_dft_paths t [] hwf

/--
Claim C5.  For any sequence of index demands registered for one table,
in any order, a demanded field sequence that is a prefix of another
demanded sequence contributes no leaf of its own: the emitted `CREATE
INDEX` paths are exactly the maximal (non-prefix-dominated, nonempty)
demanded field sequences, each exactly once, and the emitted set is
invariant under permuting the demands.
-/
theorem giles_c5_index_subsumption (tbl : String) (ds : List (List α)) (p : List α) :
    (p ∈ emitted_leaf_paths (build_demands tbl ds) (pyLower tbl) ↔
       (p ∈ ds ∧ p ≠ []) ∧ ∀ d ∈ ds, p <+: d → d = p)
    ∧ (emitted_leaf_paths (build_demands tbl ds) (pyLower tbl)).Nodup
    ∧ ∀ ds' : List (List α), ds.Perm ds' →
        (p ∈ emitted_leaf_paths (build_demands tbl ds') (pyLower tbl) ↔
          p ∈ emitted_leaf_paths (build_demands tbl ds) (pyLower tbl)) := by
  refine ⟨emitted_leaf_char tbl ds p, emitted_nodup tbl ds, ?_⟩
  intro ds' hperm
  rw [emitted_leaf_char tbl ds' p, emitted_leaf_char tbl ds p]
  constructor
  · rintro ⟨⟨hmem, hne⟩, hmax⟩
    exact ⟨⟨hperm.mem_iff.mpr hmem, hne⟩, fun d hd hp => hmax d (hperm.mem_iff.mp hd) hp⟩
  · rintro ⟨⟨hmem, hne⟩, hmax⟩
    exact ⟨⟨hperm.mem_iff.mp hmem, hne⟩, fun d hd hp => hmax d (hperm.mem_iff.mpr hd) hp⟩

end C5Proofs


/-! ### Cycle detection (claim C4) -/

section C4Proofs

variable {α : Type} [DecidableEq α]

theorem scan_edges_inl (stack todo l : List α) (n : α)
    (h : scan_edges stack todo l = some (.inl n)) : n ∈ stack ∧ n ∈ l := by
  induction l with
  | nil => simp [scan_edges] at h
  | cons a as ih =>
    rw [scan_edges] at h
    split at h
    · rename_i ha
      simp only [Option.some.injEq, Sum.inl.injEq] at h
      subst h
      exact ⟨ha, by simp⟩
    · split at h
      · simp at h
      · obtain ⟨h1, h2⟩ := ih h
        exact ⟨h1, by simp [h2]⟩

theorem scan_edges_inr (stack todo l : List α) (n : α)
    (h : scan_edges stack todo l = some (.inr n)) : n ∈ todo ∧ n ∈ l := by
  induction l with
  | nil => simp [scan_edges] at h
  | cons a as ih =>
    rw [scan_edges] at h
    split at h
    · simp at h
    · split at h
      · rename_i ha
        simp only [Option.some.injEq, Sum.inr.injEq] at h
        subst h
        exact ⟨ha, by simp⟩
      · obtain ⟨h1, h2⟩ := ih h
        exact ⟨h1, by simp [h2]⟩

theorem scan_edges_none (stack todo l : List α)
    (h : scan_edges stack todo l = none) : ∀ w ∈ l, w ∉ stack ∧ w ∉ todo := by
  induction l with
  | nil => simp
  | cons a as ih =>
    rw [scan_edges] at h
    split at h
    · simp at h
    · split at h
      · simp at h
      · rename_i h1 h2
        intro w hw
        rcases List.mem_cons.mp hw with rfl | hw
        · exact ⟨h1, h2⟩
        · exact ih h w hw

theorem find_cycle_go_nil_nil (edges : α → List α) :
    find_cycle_go edges [] [] = none := by
  rw [find_cycle_go]

theorem find_cycle_go_cons_nil (edges : α → List α) (t : α) (ts : List α) :
    find_cycle_go edges (t :: ts) [] = find_cycle_go edges ts [t] := by
  rw [find_cycle_go]

theorem find_cycle_go_inl (edges : α → List α) (todo : List α) (top : α) (rest : List α)
    (n : α) (hscan : scan_edges (top :: rest) todo (edges top) = some (.inl n)) :
    find_cycle_go edges todo (top :: rest) =
      some (((top :: rest).take ((top :: rest).indexOf n + 1)).reverse) := by
  rw [find_cycle_go, hscan]

theorem find_cycle_go_inr (edges : α → List α) (todo : List α) (top : α) (rest : List α)
    (n : α) (hscan : scan_edges (top :: rest) todo (edges top) = some (.inr n)) :
    find_cycle_go edges todo (top :: rest) =
      find_cycle_go edges (todo.erase n) (n :: top :: rest) := by
  rw [find_cycle_go, hscan]

theorem find_cycle_go_none_scan (edges : α → List α) (todo : List α) (top : α)
    (rest : List α) (hscan : scan_edges (top :: rest) todo (edges top) = none) :
    find_cycle_go edges todo (top :: rest) = find_cycle_go edges todo rest := by
  rw [find_cycle_go, hscan]

theorem chain_mem_succ {R : α → α → Prop} (l : List α) (hch : List.Chain' R l) (u : α)
    (hu : u ∈ l) : u = l.getLastD u ∨ ∃ w ∈ l, R u w := by
  induction l with
  | nil => simp at hu
  | cons x tl ih =>
    cases tl with
    | nil =>
      rcases List.mem_singleton.mp hu with rfl
      exact .inl (by simp)
    | cons y tl' =>
      rw [List.chain'_cons] at hch
      obtain ⟨hxy, hch'⟩ := hch
      rcases List.mem_cons.mp hu with rfl | hu'
      · exact .inr ⟨y, by simp, hxy⟩
      · rcases ih hch' hu' with heq | ⟨w, hw, hr⟩
        · refine .inl ?_
          rw [List.getLastD_cons, List.getLastD_cons]
          rw [List.getLastD_cons] at heq
          exact heq
        · exact .inr ⟨w, by simp [hw], hr⟩

theorem cycle_succ (edges : α → List α) (c : List α) (hc : IsCycleList edges c) (u : α)
    (hu : u ∈ c) : ∃ w ∈ c, w ∈ edges u := by
  cases c with
  | nil => simp [IsCycleList] at hc
  | cons v rest =>
    obtain ⟨hchain, hback⟩ := hc
    rcases chain_mem_succ (v :: rest) hchain u hu with heq | ⟨w, hw, hr⟩
    · refine ⟨v, by simp, ?_⟩
      have h2 : (v :: rest).getLastD u = rest.getLastD v := by rw [List.getLastD_cons]
      rw [heq, h2]
      exact hback
    · exact ⟨w, hw, hr⟩

theorem go_spec (edges : α → List α) (U : List α) (todo stack done : List α)
    (hmem : ∀ v, v ∈ U ↔ v ∈ todo ∨ v ∈ stack ∨ v ∈ done)
    (hchain : List.Chain' (fun x y => x ∈ edges y) stack)
    (hord : ∀ (i : ℕ) (hi : i < done.length), ∀ w ∈ edges (done.get ⟨i, hi⟩),
        w ∈ U → w ∈ done.take i) :
    (∀ c, find_cycle_go edges todo stack = some c →
        IsCycleList edges c ∧ ∀ v ∈ c, v ∈ U)
      ∧ (find_cycle_go edges todo stack = none →
          ∀ c, IsCycleList edges c → (∀ v ∈ c, v ∈ U) → False) := by
  cases stack with
  | nil =>
    cases todo with
    | nil =>
      rw [find_cycle_go_nil_nil]
      constructor
      · intro c hc
        simp at hc
      · intro _ c hc hcU
        have hcd : ∀ v ∈ c, v ∈ done := by
          intro v hv
          rcases (hmem v).mp (hcU v hv) with h | h | h
          · simp at h
          · simp at h
          · exact h
        have hnotin : ∀ i, ∀ hi : i < done.length, done.get ⟨i, hi⟩ ∉ c := by
          intro i
          induction i using Nat.strong_induction_on with
          | _ i IH =>
            intro hi hmem2
            obtain ⟨w, hwc, hwe⟩ := cycle_succ edges c hc _ hmem2
            have hwtake := hord i hi w hwe (hcU w hwc)
            obtain ⟨⟨j, hj⟩, hget⟩ := List.get_of_mem hwtake
            have hji : j < i := by
              have := hj
              rw [List.length_take] at this
              omega
            have hjd : j < done.length := by
              have := hj
              rw [List.length_take] at this
              omega
            have hgd : done.get ⟨j, hjd⟩ = w := by
              rw [← hget]
              simp [List.get_eq_getElem, List.getElem_take]
            exact IH j hji hjd (hgd ▸ hwc)
        cases c with
        | nil => simp [IsCycleList] at hc
        | cons v cr =>
          have hvd : v ∈ done := hcd v (by simp)
          obtain ⟨⟨i, hi⟩, hgi⟩ := List.get_of_mem hvd
          exact hnotin i hi (hgi ▸ List.mem_cons_self v cr)
    | cons t ts =>
      rw [find_cycle_go_cons_nil]
      refine go_spec edges U ts [t] done ?_ (List.chain'_singleton t) hord
      intro v
      rw [hmem v]
      simp only [List.mem_cons, List.mem_singleton, List.not_mem_nil, or_false, false_or]
      tauto
  | cons top rest =>
    cases hscan : scan_edges (top :: rest) todo (edges top) with
    | some s =>
      cases s with
      | inl n =>
        rw [find_cycle_go_inl edges todo top rest n hscan]
        obtain ⟨hn1, hn2⟩ := scan_edges_inl _ _ _ _ hscan
        constructor
        · intro c hc
          injection hc with hc
          subst hc
          have hilt : (top :: rest).indexOf n < (top :: rest).length :=
            List.indexOf_lt_length.mpr hn1
          have hlen : ((top :: rest).take ((top :: rest).indexOf n + 1)).length =
              (top :: rest).indexOf n + 1 := by
            rw [List.length_take]
            omega
          have hne : (top :: rest).take ((top :: rest).indexOf n + 1) ≠ [] := by
            intro h
            rw [h] at hlen
            simp at hlen
          have hchain_t : List.Chain' (fun x y => x ∈ edges y)
              ((top :: rest).take ((top :: rest).indexOf n + 1)) :=
            hchain.take _
          have hlast : ((top :: rest).take ((top :: rest).indexOf n + 1)).getLast hne = n := by
            rw [List.getLast_eq_getElem]
            have hidx : ((top :: rest).take ((top :: rest).indexOf n + 1)).length - 1 =
                (top :: rest).indexOf n := by omega
            have h5 : ((top :: rest).take ((top :: rest).indexOf n + 1)).get
                ⟨((top :: rest).take ((top :: rest).indexOf n + 1)).length - 1, by omega⟩ =
                (top :: rest).get ⟨(top :: rest).indexOf n, hilt⟩ := by
              simp only [List.get_eq_getElem, List.getElem_take, hidx]
            simp only [List.get_eq_getElem] at h5
            rw [h5]
            simp [List.getElem_indexOf]
          have hrev : ((top :: rest).take ((top :: rest).indexOf n + 1)).reverse =
              n :: ((top :: rest).take ((top :: rest).indexOf n + 1)).dropLast.reverse := by
            conv_lhs => rw [← List.dropLast_append_getLast hne]
            rw [List.reverse_append, hlast]
            rfl
          have hhead : ((top :: rest).take
              ((top :: rest).indexOf n + 1)).dropLast.reverse.getLastD n = top := by
            rw [List.getLastD_eq_getLast?, List.getLast?_reverse]
            rcases Nat.eq_zero_or_pos ((top :: rest).indexOf n) with hz | hpos
            · have h2 : top = n := by
                by_contra hne2
                simp [List.indexOf_cons, hne2] at hz
              rw [hz]
              simp [h2]
            · have h1 : (top :: rest).take ((top :: rest).indexOf n + 1) =
                  top :: rest.take ((top :: rest).indexOf n) := by
                simp [List.take_succ_cons]
              rw [h1]
              have h2 : rest.take ((top :: rest).indexOf n) ≠ [] := by
                intro h
                have h3 := congrArg List.length h
                rw [List.length_take] at h3
                simp only [List.length_nil] at h3
                have h4 : (top :: rest).indexOf n < rest.length + 1 := by
                  simpa using hilt
                omega
              rw [List.dropLast_cons_of_ne_nil h2]
              simp
          constructor
          · rw [hrev]
            refine ⟨?_, ?_⟩
            · rw [← hrev]
              rw [List.chain'_reverse]
              exact hchain_t
            · rw [hhead]
              exact hn2
          · intro v hv
            rw [List.mem_reverse] at hv
            have hvs : v ∈ top :: rest := List.take_subset _ _ hv
            exact (hmem v).mpr (.inr (.inl hvs))
        · intro h
          simp at h
      | inr n =>
        rw [find_cycle_go_inr edges todo top rest n hscan]
        obtain ⟨hnt, hne⟩ := scan_edges_inr _ _ _ _ hscan
        refine go_spec edges U (todo.erase n) (n :: top :: rest) done ?_
          (List.chain'_cons.mpr ⟨hne, hchain⟩) hord
        intro v
        rw [hmem v]
        by_cases hv : v = n
        · subst hv
          simp [hnt]
        · rw [List.mem_erase_of_ne hv]
          simp only [List.mem_cons]
          tauto
    | none =>
      rw [find_cycle_go_none_scan edges todo top rest hscan]
      have hscn := scan_edges_none _ _ _ hscan
      refine go_spec edges U todo rest (done ++ [top]) ?_ hchain.tail ?_
      · intro v
        rw [hmem v]
        simp only [List.mem_cons, List.mem_append, List.mem_singleton]
        tauto
      · intro i hi w hwe hwU
        rw [List.length_append, List.length_singleton] at hi
        by_cases hlt : i < done.length
        · have hget : (done ++ [top]).get ⟨i, by rw [List.length_append]; omega⟩ =
              done.get ⟨i, hlt⟩ := by
            simp only [List.get_eq_getElem]
            exact List.getElem_append_left hlt
          rw [hget] at hwe
          have hw2 := hord i hlt w hwe hwU
          rw [List.take_append_of_le_length (le_of_lt hlt)]
          exact hw2
        · have hieq : i = done.length := by omega
          subst hieq
          have hget : (done ++ [top]).get ⟨done.length, by simp⟩ = top := by
            simp [List.get_eq_getElem]
          rw [hget] at hwe
          obtain ⟨hws, hwt⟩ := hscn w hwe
          have hwd : w ∈ done := by
            rcases (hmem w).mp hwU with h | h | h
            · exact absurd h hwt
            · exact absurd h hws
            · exact h
          rw [List.take_append_of_le_length (le_refl done.length), List.take_length]
          exact hwd
termination_by (todo.length, stack.length)
decreasing_by
  all_goals simp_wf
  all_goals subst_vars
  · exact Prod.Lex.left _ _ (by simp)
  · exact Prod.Lex.right _ (by simp)
  · refine Prod.Lex.left _ _ ?_
    have h1 : 0 < todo.length := List.length_pos.mpr (List.ne_nil_of_mem hnt)
    rw [List.length_erase_of_mem hnt]
    omega

/--
Claim C4.  For every finite rule graph given by a node list and an edges
function, `find_cycle` returns `None` if and only if the graph restricted
to the given nodes is acyclic; when it returns a list, that list is a
directed cycle of the graph (starting at the repeated node, whose last
element has an edge back to it) lying entirely within the given nodes.
-/
theorem giles_c4_cycle_detection (nodes : List α) (edges : α → List α) :
    (∀ c, find_cycle nodes edges = some c →
        IsCycleList edges c ∧ ∀ v ∈ c, v ∈ nodes)
    ∧ (find_cycle nodes edges = none ↔
        ¬ ∃ c, IsCycleList edges c ∧ ∀ v ∈ c, v ∈ nodes) := by
  have hspec := go_spec edges nodes.dedup nodes.dedup [] []
    (fun v => by simp) List.chain'_nil (fun i hi => by simp at hi)
  constructor
  · intro c hc
    obtain ⟨h1, h2⟩ := hspec.1 c hc
    exact ⟨h1, fun v hv => by simpa using h2 v hv⟩
  · constructor
    · rintro hnone ⟨c, hc, hcU⟩
      exact hspec.2 hnone c hc (fun v hv => by simpa using hcU v hv)
    · intro hno
      cases hfc : find_cycle nodes edges with
      | none => rfl
      | some c =>
        obtain ⟨h1, h2⟩ := hspec.1 c hfc
        exact absurd ⟨c, h1, fun v hv => by simpa using h2 v hv⟩ hno

end C4Proofs


end Giles
